import Mathlib

/-! # Named sortable identifiers (package nid)

A shallow embedding of the Go package: the 16-byte Base with its base32 text
codec, the name grammar, the composite NID with its text codec, and the
comparison and sorting functions.  Go strings and byte slices are lists of bytes; a byte is
a natural number below 256.  Arithmetic on machine words is done on naturals
with the truncation written out.
-/

namespace Nid

/-! ## Bytes and strings -/

deriving instance DecidableEq for Except

/-- A Go byte. -/
abbrev Byte := Fin 256

/-- A Go string or byte slice: a finite sequence of bytes. -/
abbrev Str := List Byte

/-- Conversion of a natural number to a byte, keeping the low eight bits. -/
def toByte (n : Nat) : Byte := ⟨n % 256, Nat.mod_lt _ (by decide)⟩

/-- The constants of base.go. -/
def timeLen : Nat := 8
def randLen : Nat := 8
def baseLen : Nat := timeLen + randLen

/-- The alphabet encStr, "0123456789abcdefghijklmnopqrstuv", as bytes. -/
def encStr : Str :=
  [48, 49, 50, 51, 52, 53, 54, 55, 56, 57,
   97, 98, 99, 100, 101, 102, 103, 104, 105, 106, 107,
   108, 109, 110, 111, 112, 113, 114, 115, 116, 117, 118]

/-- The byte of the underscore, the separator of name and base. -/
def underscore : Byte := 95

/-! ## encoding/base32, as configured by
    base32.NewEncoding(encStr).WithPadding(base32.NoPadding) -/

/-- The padding rune of the encoding: base32.NoPadding is the rune -1. -/
def padChar : Int := -1

/-- The conversion byte(enc.padChar) of a rune to a byte (truncation). -/
def padByte : Byte := toByte (padChar % 256).toNat

/-- The table enc.encode: the symbol of a 5-bit value. -/
def encodeSym (v : Nat) : Byte := encStr.getD v 0

/-- The table enc.decodeMap built by NewEncoding: 256 entries, 0xFF everywhere
except at the bytes of the alphabet, which hold their index. -/
def decodeMap : List Nat :=
  (List.range encStr.length).foldl
    (fun m i => m.set (encStr.getD i 0).val i) (List.replicate 256 0xFF)

/-- The lookup enc.decodeMap[c]. -/
def decodeSym (c : Byte) : Nat := decodeMap.getD c.val 0xFF

/-- The length of the unpadded encoding of n bytes (Encoding.EncodedLen). -/
def EncodedLen (n : Nat) : Nat := n / 5 * 8 + (n % 5 * 8 + 4) / 5

/-- The final, partial block of Encoding.Encode: the switch on the number of
remaining bytes, with its fall-through, without padding. -/
def encodeTail : Str → Str
  | [s0] =>
    let val := s0.val <<< 24
    [encodeSym ((val >>> 27) &&& 0x1F), encodeSym ((val >>> 22) &&& 0x1F)]
  | [s0, s1] =>
    let val := s1.val <<< 16
    let d3 := encodeSym ((val >>> 12) &&& 0x1F)
    let d2 := encodeSym ((val >>> 17) &&& 0x1F)
    let val := val ||| s0.val <<< 24
    [encodeSym ((val >>> 27) &&& 0x1F), encodeSym ((val >>> 22) &&& 0x1F), d2, d3]
  | [s0, s1, s2] =>
    let val := s2.val <<< 8
    let d4 := encodeSym ((val >>> 7) &&& 0x1F)
    let val := val ||| s1.val <<< 16
    let d3 := encodeSym ((val >>> 12) &&& 0x1F)
    let d2 := encodeSym ((val >>> 17) &&& 0x1F)
    let val := val ||| s0.val <<< 24
    [encodeSym ((val >>> 27) &&& 0x1F), encodeSym ((val >>> 22) &&& 0x1F), d2, d3, d4]
  | [s0, s1, s2, s3] =>
    let val := s3.val
    let d6 := encodeSym (((val <<< 3) % 2 ^ 32) &&& 0x1F)
    let d5 := encodeSym ((val >>> 2) &&& 0x1F)
    let val := val ||| s2.val <<< 8
    let d4 := encodeSym ((val >>> 7) &&& 0x1F)
    let val := val ||| s1.val <<< 16
    let d3 := encodeSym ((val >>> 12) &&& 0x1F)
    let d2 := encodeSym ((val >>> 17) &&& 0x1F)
    let val := val ||| s0.val <<< 24
    [encodeSym ((val >>> 27) &&& 0x1F), encodeSym ((val >>> 22) &&& 0x1F), d2, d3, d4, d5, d6]
  | _ => []

/-- Encoding.Encode: every full block of five bytes gives eight symbols, read
off two 32-bit words hi and lo; the rest goes through encodeTail. -/
def Encode : Str → Str
  | s0 :: s1 :: s2 :: s3 :: s4 :: rest =>
    let hi := s0.val <<< 24 ||| s1.val <<< 16 ||| s2.val <<< 8 ||| s3.val
    let lo := ((hi <<< 8) % 2 ^ 32) ||| s4.val
    encodeSym ((hi >>> 27) &&& 0x1F) ::
    encodeSym ((hi >>> 22) &&& 0x1F) ::
    encodeSym ((hi >>> 17) &&& 0x1F) ::
    encodeSym ((hi >>> 12) &&& 0x1F) ::
    encodeSym ((hi >>> 7) &&& 0x1F) ::
    encodeSym ((hi >>> 2) &&& 0x1F) ::
    encodeSym ((lo >>> 5) &&& 0x1F) ::
    encodeSym (lo &&& 0x1F) :: Encode rest
  | rest => encodeTail rest

/-- The helper stripNewlines of Encoding.Decode: carriage returns and line
feeds are dropped from the input before it is decoded. -/
def stripNewlines (src : Str) : Str :=
  src.filter (fun b => !(b == 13 || b == 10))

/-- The switch of Encoding.decode that packs the dlen 5-bit values of dbuf into
the destination at dsti, with its fall-through; n counts the bytes written.
The byte expressions are truncated to eight bits as in Go. -/
def packQuantum (dbuf : List Nat) (dlen : Nat) (dst : Str) (dsti n : Nat) : Str × Nat :=
  let d := fun i => dbuf.getD i 0
  let w0 := fun (p : Str × Nat) =>
    (p.1.set (dsti + 0) (toByte (((d 0 <<< 3) % 256) ||| (d 1 >>> 2))), p.2 + 1)
  let w1 := fun (p : Str × Nat) =>
    w0 (p.1.set (dsti + 1)
      (toByte (((d 1 <<< 6) % 256) ||| ((d 2 <<< 1) % 256) ||| (d 3 >>> 4))), p.2 + 1)
  let w2 := fun (p : Str × Nat) =>
    w1 (p.1.set (dsti + 2) (toByte (((d 3 <<< 4) % 256) ||| (d 4 >>> 1))), p.2 + 1)
  let w3 := fun (p : Str × Nat) =>
    w2 (p.1.set (dsti + 3)
      (toByte (((d 4 <<< 7) % 256) ||| ((d 5 <<< 2) % 256) ||| (d 6 >>> 3))), p.2 + 1)
  let w4 := fun (p : Str × Nat) =>
    w3 (p.1.set (dsti + 4) (toByte (((d 6 <<< 5) % 256) ||| d 7)), p.2 + 1)
  if dlen = 8 then w4 (dst, n)
  else if dlen = 7 then w3 (dst, n)
  else if dlen = 5 then w2 (dst, n)
  else if dlen = 4 then w1 (dst, n)
  else if dlen = 2 then w0 (dst, n)
  else (dst, n)

/-- The state of Encoding.decode between two input symbols: the destination,
the write position, the count of bytes written, and the quantum being read
(its buffer dbuf and the index j of the next 5-bit value). -/
structure DecState where
  dst : Str
  dsti : Nat
  n : Nat
  dbuf : List Nat
  j : Nat

/-- The padding check of Encoding.decode, run when the symbol just read equals
byte(enc.padChar) with j at least 2 and fewer than 8 symbols left (src is what
is left after that symbol).  It gives the offset of a CorruptInputError, or
nothing when the quantum ends here with dlen = j. -/
def checkPadding (olen : Nat) (src : Str) (j : Nat) : Option Nat :=
  if src.length + j < 8 - 1 then some olen
  else
    match (List.range (8 - 1 - j)).find?
        (fun k => decide (src.length > k) && (src.getD k 0 != padByte)) with
    | some k => some (olen - src.length + k - 1)
    | none =>
      if j = 1 ∨ j = 3 ∨ j = 6 then some (olen - src.length - 1) else none

/-- Encoding.decode, symbol by symbol.  The result is the offset of a
CorruptInputError, or the destination and the number of bytes written.
An input that ends inside a quantum ends it with dlen = j (there is no
padding to expect); a full quantum is packed and the next one starts. -/
def decodeLoop (olen : Nat) : Str → DecState → Except Nat (Str × Nat)
  | [], st =>
    if st.j = 0 then .ok (st.dst, st.n)
    else .ok (packQuantum st.dbuf st.j st.dst st.dsti st.n)
  | c :: src, st =>
    if c = padByte ∧ st.j ≥ 2 ∧ src.length < 8 then
      match checkPadding olen src st.j with
      | some off => .error off
      | none => .ok (packQuantum st.dbuf st.j st.dst st.dsti st.n)
    else
      let v := decodeSym c
      if v = 0xFF then .error (olen - src.length - 1)
      else
        let dbuf := st.dbuf.set st.j v
        if st.j + 1 = 8 then
          let p := packQuantum dbuf 8 st.dst st.dsti st.n
          decodeLoop olen src ⟨p.1, st.dsti + 5, p.2, List.replicate 8 0, 0⟩
        else
          decodeLoop olen src ⟨st.dst, st.dsti, st.n, dbuf, st.j + 1⟩

/-- Encoding.Decode into dst: newlines are stripped, then the symbols are
decoded. -/
def Decode (dst src : Str) : Except Nat (Str × Nat) :=
  let buf := stripNewlines src
  decodeLoop buf.length buf ⟨dst, 0, 0, List.replicate 8 0, 0⟩

/-! ## errors.go -/

/-- The two sentinel errors of the package. -/
inductive Sentinel where
  | ErrFailedParse
  | ErrInvalidName
deriving DecidableEq, Repr

/-- The errors the package builds with fmt.Errorf, one constructor for each
format string, holding the values the message reports. -/
inductive Err where
  /-- "%w: invalid base id length: %d" on ErrFailedParse -/
  | baseLength (l : Nat)
  /-- "%w: invalid base encoding: %w" on ErrFailedParse and a base32
  CorruptInputError with its offset -/
  | baseEncoding (offset : Nat)
  /-- "%w: invalid named identifier: %q" on ErrFailedParse -/
  | namedIdentifier (str : Str)
  /-- "%w: identifier name must be a non-empty snake_case string: %q" on
  ErrFailedParse -/
  | identifierName (name : Str)
  /-- "%w: must be a non-empty snake_case string: %s" on ErrInvalidName -/
  | namingName (name : Str)
  /-- "%w: invalid scan source: %T" on ErrFailedParse, with the name of the
  type -/
  | scanSource (typ : Str)
deriving DecidableEq, Repr

/-- The sentinel an error wraps with %w: what errors.Is finds. -/
def Err.wraps : Err → Sentinel → Bool
  | .baseLength _, s => s = .ErrFailedParse
  | .baseEncoding _, s => s = .ErrFailedParse
  | .namedIdentifier _, s => s = .ErrFailedParse
  | .identifierName _, s => s = .ErrFailedParse
  | .namingName _, s => s = .ErrInvalidName
  | .scanSource _, s => s = .ErrFailedParse

/-- The ways a call can panic instead of returning. -/
inductive Panic where
  /-- the error of rand.Read, in NewBaseAt -/
  | randRead
  /-- "nid: identifier naming was not initialized" -/
  | notInitialized
  /-- the error a Must helper panics with -/
  | ofErr (e : Err)
deriving DecidableEq, Repr

/-! ## base.go -/

/-- The type Base, an array of baseLen = 16 bytes. -/
structure Base where
  bytes : Str
  size : bytes.length = baseLen
deriving DecidableEq

/-- The zero value Base{}: sixteen zero bytes. -/
def Base.zero : Base := ⟨List.replicate baseLen 0, List.length_replicate _ _⟩

/-- The element base[i]. -/
def Base.at (b : Base) (i : Nat) : Byte := b.bytes.getD i 0

/-- The conversion uint64(x) of a signed 64-bit integer. -/
def toUint64 (x : Int) : Nat := (x % 2 ^ 64).toNat

/-- binary.BigEndian.PutUint64: the eight bytes of v, most significant
first. -/
def putUint64 (v : Nat) : Str :=
  [toByte (v >>> 56), toByte (v >>> 48), toByte (v >>> 40), toByte (v >>> 32),
   toByte (v >>> 24), toByte (v >>> 16), toByte (v >>> 8), toByte v]

/-- NewBaseAt.  The time is given by ms = ts.UnixMilli(), a signed 64-bit
integer; rnd is the outcome of rand.Read on the last eight bytes: the bytes
read, or nothing when the read fails, and then NewBaseAt panics. -/
def NewBaseAt (ms : Int) (rnd : Option (Fin 8 → Byte)) : Except Panic Base :=
  match rnd with
  | none => .error .randRead
  | some r =>
    .ok ⟨putUint64 (toUint64 ms) ++ List.ofFn r, by
      simp [putUint64, baseLen, timeLen, randLen]⟩

/-- The loop of Base.Empty over a byte sequence. -/
def allZero : Str → Bool
  | [] => true
  | b :: rest => if b ≠ 0 then false else allZero rest

/-- Base.Empty: true when no byte differs from zero. -/
def Base.Empty (b : Base) : Bool := allZero b.bytes

/-- Base.MarshalText: the encoding of the sixteen bytes (there is no error). -/
def Base.MarshalText (b : Base) : Str := Encode b.bytes

/-- Base.String. -/
def Base.String (b : Base) : Str := b.MarshalText

/-- The conversion of the slice dst[:] that Decode has filled back to a Base
(Decode neither grows nor shrinks it). -/
def Base.ofDst (dst : Str) : Base :=
  if h : dst.length = baseLen then ⟨dst, h⟩ else Base.zero

/-- Base.UnmarshalText on the receiver base: the receiver after the call and
the error returned. -/
def Base.UnmarshalText (base : Base) (src : Str) : Base × Option Err :=
  let l := src.length
  if l = 0 then (Base.zero, none)
  else if l ≠ EncodedLen baseLen then (base, some (.baseLength l))
  else
    match Decode Base.zero.bytes src with
    | .error off => (base, some (.baseEncoding off))
    | .ok (dst, _) => (Base.ofDst dst, none)

/-- ParseBaseBytes: UnmarshalText on a fresh Base; both results are returned. -/
def ParseBaseBytes (src : Str) : Base × Option Err := Base.zero.UnmarshalText src

/-- ParseBase. -/
def ParseBase (src : Str) : Base × Option Err := ParseBaseBytes src

/-! ## compare.go -/

/-- The loop of CompareBase from index i on, with k indices left. -/
def CompareBase.loop (a b : Base) : Nat → Nat → Int
  | 0, _ => 0
  | k + 1, i =>
    if a.at i < b.at i then -1
    else if a.at i > b.at i then 1
    else CompareBase.loop a b k (i + 1)

/-- CompareBase. -/
def CompareBase (a b : Base) : Int := CompareBase.loop a b baseLen 0

/-- The comparison of two Go strings, byte by byte, a proper initial part
being smaller: -1, 0 or 1 (strings.Compare; the operators on strings are its
sign tests). -/
def stringCompare : Str → Str → Int
  | [], [] => 0
  | [], _ :: _ => -1
  | _ :: _, [] => 1
  | x :: xs, y :: ys =>
    if x < y then -1 else if x > y then 1 else stringCompare xs ys

/-! ## naming.go -/

/-- The loop of validateName; i is the index of the byte and ok the flag.
Go ranges over the runes of the string: a byte below 0x80 is its own rune,
and at any other byte the rune read is at least 0x80 (a decoded code point or
the replacement rune 0xFFFD), which falls to the default case. -/
def validateName.loop : Str → Nat → Bool → Bool
  | [], _, ok => ok
  | r :: rest, i, ok =>
    if r = 95 then
      if !ok then false else validateName.loop rest (i + 1) false
    else if 48 ≤ r ∧ r ≤ 57 then
      if i = 0 then false else validateName.loop rest (i + 1) true
    else if 97 ≤ r ∧ r ≤ 122 then validateName.loop rest (i + 1) true
    else false

/-- validateName. -/
def validateName (str : Str) : Bool := validateName.loop str 0 false

/-- The type Naming. -/
structure Naming where
  name : Str
deriving DecidableEq

/-- The type NID. -/
structure NID where
  name : Str
  base : Base
deriving DecidableEq

/-- The zero value NID{}. -/
def NID.zero : NID := ⟨[], Base.zero⟩

/-- NewNaming: the Naming and the error. -/
def NewNaming (name : Str) : Naming × Option Err :=
  if !validateName name then (⟨[]⟩, some (.namingName name))
  else (⟨name⟩, none)

/-- Naming.initialized: panics when the name is empty. -/
def Naming.initialized (n : Naming) : Except Panic Unit :=
  if n.name = [] then .error .notInitialized else .ok ()

/-- NID.Empty. -/
def NID.Empty (id : NID) : Bool := id.name.length = 0 || id.base.Empty

/-- Naming.NewAt, on the millisecond time and the outcome of the random
read. -/
def Naming.NewAt (n : Naming) (ms : Int) (rnd : Option (Fin 8 → Byte)) : Except Panic NID :=
  match n.initialized with
  | .error p => .error p
  | .ok _ =>
    match NewBaseAt ms rnd with
    | .error p => .error p
    | .ok base => .ok ⟨n.name, base⟩

/-- Naming.Is. -/
def Naming.Is (n : Naming) (id : NID) : Except Panic Bool :=
  match n.initialized with
  | .error p => .error p
  | .ok _ => .ok (n.name = id.name)

/-- Naming.Apply. -/
def Naming.Apply (n : Naming) (base : Base) : Except Panic NID :=
  match n.initialized with
  | .error p => .error p
  | .ok _ => if base.Empty then .ok NID.zero else .ok ⟨n.name, base⟩

/-- Naming.Update. -/
def Naming.Update (n : Naming) (id : NID) : Except Panic NID :=
  match n.initialized with
  | .error p => .error p
  | .ok _ => if id.Empty then .ok NID.zero else .ok ⟨n.name, id.base⟩

/-! ## nid.go -/

/-- strings.LastIndex for a one-byte separator: the index of the last
occurrence of c in s, or -1. -/
def lastIndexByte : Str → Byte → Int
  | [], _ => -1
  | x :: xs, c =>
    let r := lastIndexByte xs c
    if r ≥ 0 then r + 1 else if x = c then 0 else -1

/-- NID.MarshalText (there is no error). -/
def NID.MarshalText (id : NID) : Str :=
  if id.name.length = 0 || id.base.Empty then []
  else id.name ++ underscore :: id.base.String

/-- NID.String. -/
def NID.String (id : NID) : Str := id.MarshalText

/-- NID.UnmarshalText on the receiver id: the receiver after the call and the
error returned. -/
def NID.UnmarshalText (id : NID) (data : Str) : NID × Option Err :=
  if data.length = 0 then (NID.zero, none)
  else
    let cut := lastIndexByte data underscore
    if cut ≤ 0 ∨ cut = (data.length : Int) - 1 then (id, some (.namedIdentifier data))
    else
      let name := data.take cut.toNat
      if !validateName name then (id, some (.identifierName name))
      else
        match id.base.UnmarshalText (data.drop (cut.toNat + 1)) with
        | (base, some err) => (⟨id.name, base⟩, some err)
        | (base, none) =>
          if base.Empty then (⟨[], base⟩, none) else (⟨name, base⟩, none)

/-- Parse: UnmarshalText on a fresh NID; both results are returned. -/
def Parse (str : Str) : NID × Option Err := NID.zero.UnmarshalText str

/-- Compare. -/
def Compare (a b : NID) : Int :=
  if stringCompare a.name b.name = -1 then -1
  else if stringCompare a.name b.name = 1 then 1
  else CompareBase a.base b.base

/-! ## Auxiliary definitions: the codec on 5-bit values -/

/-- The eight 5-bit values of the 40-bit number of a block of five bytes. -/
def quantumVals (s0 s1 s2 s3 s4 : Nat) : List Nat :=
  let N := s0 * 4294967296 + s1 * 16777216 + s2 * 65536 + s3 * 256 + s4
  [N / 34359738368 % 32, N / 1073741824 % 32, N / 33554432 % 32, N / 1048576 % 32,
   N / 32768 % 32, N / 1024 % 32, N / 32 % 32, N % 32]

/-- The 26 5-bit values of the encoding of sixteen bytes. -/
def baseVals (s : Str) : List Nat :=
  let b := fun i => (s.getD i 0).val
  quantumVals (b 0) (b 1) (b 2) (b 3) (b 4) ++ quantumVals (b 5) (b 6) (b 7) (b 8) (b 9) ++
  quantumVals (b 10) (b 11) (b 12) (b 13) (b 14) ++ [b 15 / 8, b 15 * 4 % 32]

/-- The decoding loop on 5-bit values instead of symbols: what decodeLoop
computes when every symbol is in the alphabet. -/
def decodeVals : List Nat → DecState → Str × Nat
  | [], st =>
    if st.j = 0 then (st.dst, st.n)
    else packQuantum st.dbuf st.j st.dst st.dsti st.n
  | v :: vs, st =>
    if st.j + 1 = 8 then
      decodeVals vs ⟨(packQuantum (st.dbuf.set st.j v) 8 st.dst st.dsti st.n).1, st.dsti + 5,
        (packQuantum (st.dbuf.set st.j v) 8 st.dst st.dsti st.n).2, List.replicate 8 0, 0⟩
    else decodeVals vs ⟨st.dst, st.dsti, st.n, st.dbuf.set st.j v, st.j + 1⟩

/-- The sixteen bytes that decoding writes for 26 5-bit values. -/
def unpackVals (vs : List Nat) : Str :=
  let d := fun i => vs.getD i 0
  let q := fun k =>
    [toByte (d (k + 0) * 8 + d (k + 1) / 4),
     toByte (d (k + 1) * 64 % 256 + d (k + 2) * 2 + d (k + 3) / 16),
     toByte (d (k + 3) * 16 % 256 + d (k + 4) / 2),
     toByte (d (k + 4) * 128 % 256 + d (k + 5) * 4 + d (k + 6) / 8),
     toByte (d (k + 6) * 32 % 256 + d (k + 7))]
  q 0 ++ q 8 ++ q 16 ++ [toByte (d 24 * 8 + d 25 / 4)]

/-! ## The name grammar of the specification -/

/-- A character class: the regular expression matching one byte of cs. -/
def charClass (cs : List Byte) : RegularExpression Byte :=
  cs.foldr (fun c r => RegularExpression.plus (RegularExpression.char c) r) RegularExpression.zero

/-- The class [a-z]. -/
def lowerRE : RegularExpression Byte :=
  charClass [97, 98, 99, 100, 101, 102, 103, 104, 105, 106, 107, 108, 109, 110, 111, 112, 113,
    114, 115, 116, 117, 118, 119, 120, 121, 122]

/-- The class [0-9]. -/
def digitRE : RegularExpression Byte := charClass [48, 49, 50, 51, 52, 53, 54, 55, 56, 57]

/-- The class [a-z0-9]. -/
def alnumRE : RegularExpression Byte := RegularExpression.plus lowerRE digitRE

/-- The expression of the specification, [a-z][a-z0-9]*(_[a-z0-9]+)*, matched
against the whole string. -/
def nameRE : RegularExpression Byte :=
  RegularExpression.comp
    (RegularExpression.comp lowerRE (RegularExpression.star alnumRE))
    (RegularExpression.star
      (RegularExpression.comp (RegularExpression.char underscore)
        (RegularExpression.comp alnumRE (RegularExpression.star alnumRE))))


/-- The bytes a to z. -/
def isLower (c : Byte) : Prop := 97 ≤ c ∧ c ≤ 122

/-- The bytes 0 to 9. -/
def isDigit (c : Byte) : Prop := 48 ≤ c ∧ c ≤ 57

instance (c : Byte) : Decidable (isLower c) := by unfold isLower; infer_instance
instance (c : Byte) : Decidable (isDigit c) := by unfold isDigit; infer_instance

/-- The language of what may follow an accepted letter or digit of a name:
[a-z0-9]*(_[a-z0-9]+)*. -/
def tailLang : Language Byte :=
  KStar.kstar alnumRE.matches' *
    KStar.kstar ((RegularExpression.char underscore).matches' *
      (alnumRE.matches' * KStar.kstar alnumRE.matches'))

/-! ## Auxiliary definitions: orders -/

/-- The sign of the comparison of two numbers: -1, 0 or 1. -/
def sgnCmp (x y : Nat) : Int := if x < y then -1 else if x > y then 1 else 0

/-- The lexicographic comparison of two sequences of numbers, as stringCompare
on bytes. -/
def lexCmp : List Nat → List Nat → Int
  | [], [] => 0
  | [], _ :: _ => -1
  | _ :: _, [] => 1
  | x :: xs, y :: ys =>
    if x < y then -1 else if x > y then 1 else lexCmp xs ys

/-- The number with the digits ds in base B, most significant first. -/
def bigEndian (B : Nat) : List Nat → Nat
  | [] => 0
  | d :: ds => d * B ^ ds.length + bigEndian B ds

/-- The 128-bit unsigned integer read big-endian from the sixteen bytes. -/
def Base.uint128 (b : Base) : Nat := bigEndian 256 (b.bytes.map Fin.val)

/-- The first eight bytes read as a big-endian unsigned 64-bit integer
(binary.BigEndian.Uint64 on base[:timeLen]). -/
def Base.timeBits (b : Base) : Nat := bigEndian 256 ((b.bytes.take timeLen).map Fin.val)

/-- The last eight bytes read as a big-endian unsigned 64-bit integer. -/
def Base.randBits (b : Base) : Nat := bigEndian 256 ((b.bytes.drop timeLen).map Fin.val)

/-! ## sort.go -/

/-- What slices.SortFunc asks of cmp: the relation cmp(a, b) < 0 is a strict
weak ordering (irreflexive, transitive, with a transitive incomparability),
and cmp(a, b) is positive exactly when cmp(b, a) is negative. -/
def StrictWeakOrdering {α : Type} (cmp : α → α → Int) : Prop :=
  (∀ a, ¬ cmp a a < 0) ∧
  (∀ a b c, cmp a b < 0 → cmp b c < 0 → cmp a c < 0) ∧
  (∀ a b c, ¬ cmp a b < 0 → ¬ cmp b a < 0 → ¬ cmp b c < 0 → ¬ cmp c b < 0 →
    ¬ cmp a c < 0 ∧ ¬ cmp c a < 0) ∧
  (∀ a b, 0 < cmp a b ↔ cmp b a < 0)

/-- The function slices.IsSortedFunc: no element compares below the one before
it. -/
def IsSortedFunc {α : Type} (cmp : α → α → Int) : List α → Bool
  | [] => true
  | [_] => true
  | a :: b :: rest => if cmp b a < 0 then false else IsSortedFunc cmp (b :: rest)

/-- The contract of slices.SortFunc, a function of the Go standard library
that sort.go calls: when cmp is a strict weak ordering, the slice after the
call holds the elements it held before and is in ascending order as cmp
determines it. -/
def SortFuncContract (sortFunc : {α : Type} → (α → α → Int) → List α → List α) : Prop :=
  ∀ (α : Type) (cmp : α → α → Int) (x : List α), StrictWeakOrdering cmp →
    (sortFunc cmp x).Perm x ∧ IsSortedFunc cmp (sortFunc cmp x) = true

/-- The function Sort of sort.go, on the contents of the slice: the contents
after the call.  The parameter sortFunc is slices.SortFunc. -/
def SortNID (sortFunc : {α : Type} → (α → α → Int) → List α → List α) (ids : List NID) :
    List NID :=
  sortFunc Compare ids

/-- SortBase: the contents of the slice after the call. -/
def SortBase (sortFunc : {α : Type} → (α → α → Int) → List α → List α) (ids : List Base) :
    List Base :=
  sortFunc CompareBase ids

/-- Insertion sort by a comparison function: one function that meets the
contract of slices.SortFunc. -/
def insertionSortFunc {α : Type} (cmp : α → α → Int) (x : List α) : List α :=
  List.insertionSort (fun a b => cmp a b ≤ 0) x

/-- NewBase: NewBaseAt at the current time; now is time.Now() in milliseconds
and rnd the outcome of the random read. -/
def NewBase (now : Int) (rnd : Option (Fin 8 → Byte)) : Except Panic Base := NewBaseAt now rnd

/-- Naming.New. -/
def Naming.New (n : Naming) (now : Int) (rnd : Option (Fin 8 → Byte)) : Except Panic NID :=
  match n.initialized with
  | .error p => .error p
  | .ok _ =>
    match NewBase now rnd with
    | .error p => .error p
    | .ok base => .ok ⟨n.name, base⟩

/-! ## base.go and nid.go: time, storage values and JSON -/

/-- The function binary.BigEndian.Uint64 on the first eight bytes of b. -/
def Uint64 (b : Str) : Nat :=
  (b.getD 7 0).val ||| (b.getD 6 0).val <<< 8 ||| (b.getD 5 0).val <<< 16 |||
    (b.getD 4 0).val <<< 24 ||| (b.getD 3 0).val <<< 32 ||| (b.getD 2 0).val <<< 40 |||
    (b.getD 1 0).val <<< 48 ||| (b.getD 0 0).val <<< 56

/-- The conversion int64(u) of an unsigned 64-bit integer. -/
def toInt64 (u : Nat) : Int :=
  if u % 2 ^ 64 < 2 ^ 63 then ((u % 2 ^ 64 : Nat) : Int) else ((u % 2 ^ 64 : Nat) : Int) - 2 ^ 64

/-- The result of an int64 operation whose exact value is x: x wrapped to the
signed 64-bit range. -/
def wrapInt64 (x : Int) : Int := toInt64 (toUint64 x)

/-- Base.UnixMilli. -/
def Base.UnixMilli (base : Base) : Int := toInt64 (Uint64 (base.bytes.take timeLen))

/-- The constant time.Millisecond, in nanoseconds. -/
def Millisecond : Int := 1000000

/-- Base.Time.  A time.Time is given by its offset from the Unix epoch in
nanoseconds: time.Unix(0, n) is the instant n nanoseconds after the epoch, and
n is the int64 product of UnixMilli() and time.Millisecond. -/
def Base.Time (base : Base) : Int := wrapInt64 (base.UnixMilli * Millisecond)

/-- Base.Bytes. -/
def Base.Bytes (base : Base) : Str := base.bytes

/-- A driver.Value as this package produces it: nil, a byte slice or a
string. -/
inductive DriverValue where
  | nil
  | bytes (b : Str)
  | string (s : Str)
deriving DecidableEq

/-- The argument of Scan, of type any: nil, a string, a byte slice, or a value
of another type, given by the name of its type. -/
inductive ScanSrc where
  | nil
  | string (s : Str)
  | bytes (b : Str)
  | other (typ : Str)
deriving DecidableEq

/-- Base.Value (the error is always nil). -/
def Base.Value (base : Base) : DriverValue :=
  if base.Empty then .nil else .bytes base.Bytes

/-- Base.Scan on the receiver base: the receiver after the call and the error
returned. -/
def Base.Scan (base : Base) (src : ScanSrc) : Base × Option Err :=
  match src with
  | .nil => (Base.zero, none)
  | .string s => base.UnmarshalText s
  | .bytes b =>
    if b.length = 0 then (Base.zero, none)
    else if h : b.length ≠ baseLen then (base, some (.baseLength b.length))
    else (⟨b, not_not.mp h⟩, none)
  | .other typ => (base, some (.scanSource typ))

/-- The JSON token null. -/
def jsonNull : Str := [110, 117, 108, 108]

/-- The function json.Marshal on a Go string (there is no error): the string
between two double quotes, with its characters escaped; the escaping done by
the standard library is the parameter esc. -/
def jsonMarshalString (esc : Str → Str) (s : Str) : Str := 34 :: (esc s ++ [34])

/-- Base.MarshalJSON (the error is always nil). -/
def Base.MarshalJSON (esc : Str → Str) (base : Base) : Str :=
  if base.Empty then jsonNull else jsonMarshalString esc base.String

/-- NID.Value (the error is always nil). -/
def NID.Value (id : NID) : DriverValue :=
  if id.Empty then .nil else .string id.String

/-- NID.MarshalJSON (the error is always nil). -/
def NID.MarshalJSON (esc : Str → Str) (id : NID) : Str :=
  if id.Empty then jsonNull else jsonMarshalString esc id.String

/-! ## Theorems -/

/-! ### Bit operations as arithmetic -/

theorem or_eq_add_of_mod (a b i : Nat) (ha : a % 2 ^ i = 0) (hb : b < 2 ^ i) :
    a ||| b = a + b := by
  have h := Nat.mul_add_lt_is_or hb (a / 2 ^ i)
  have e : 2 ^ i * (a / 2 ^ i) = a := by
    have := Nat.div_add_mod a (2 ^ i)
    omega
  rw [e] at h
  exact h.symm

theorem and_31 (x : Nat) : x &&& 31 = x % 32 := Nat.and_pow_two_sub_one_eq_mod x 5

theorem hi_eq (s0 s1 s2 s3 : Nat) (h1 : s1 < 256) (h2 : s2 < 256) (h3 : s3 < 256) :
    s0 <<< 24 ||| s1 <<< 16 ||| s2 <<< 8 ||| s3 = s0 * 16777216 + s1 * 65536 + s2 * 256 + s3 := by
  simp only [Nat.shiftLeft_eq, Nat.reducePow]
  rw [or_eq_add_of_mod (s0 * 16777216) (s1 * 65536) 24 (by omega) (by omega),
    or_eq_add_of_mod (s0 * 16777216 + s1 * 65536) (s2 * 256) 16 (by omega) (by omega),
    or_eq_add_of_mod _ s3 8 (by omega) (by omega)]

theorem lo_eq (hi s4 : Nat) (h4 : s4 < 256) :
    ((hi <<< 8) % 2 ^ 32) ||| s4 = (hi * 256) % 4294967296 + s4 := by
  simp only [Nat.shiftLeft_eq, Nat.reducePow]
  rw [or_eq_add_of_mod _ _ 8 (by omega) (by omega)]

theorem decodeSym_encodeSym : ∀ v < 32, decodeSym (encodeSym v) = v := by decide
theorem encodeSym_ne_pad : ∀ v < 32, encodeSym v ≠ padByte := by decide
theorem encodeSym_ne_nl : ∀ v < 32, encodeSym v ≠ 13 ∧ encodeSym v ≠ 10 := by decide

theorem Encode_block (s0 s1 s2 s3 s4 : Byte) (rest : Str) :
    Encode (s0 :: s1 :: s2 :: s3 :: s4 :: rest) =
      (quantumVals s0.val s1.val s2.val s3.val s4.val).map encodeSym ++ Encode rest := by
  have h0 := s0.isLt
  have h1 := s1.isLt
  have h2 := s2.isLt
  have h3 := s3.isLt
  have h4 := s4.isLt
  rw [Encode]
  simp only [quantumVals, List.map_cons, List.map_nil, List.cons_append, List.nil_append]
  rw [lo_eq _ _ h4, hi_eq _ _ _ _ h1 h2 h3]
  simp only [Nat.shiftRight_eq_div_pow, Nat.reducePow, and_31]
  iterate 8 refine congrArg₂ List.cons (congrArg encodeSym (by omega)) ?_
  rfl

theorem encodeTail_one (s0 : Byte) :
    encodeTail [s0] = [encodeSym (s0.val / 8), encodeSym (s0.val * 4 % 32)] := by
  have h0 := s0.isLt
  rw [encodeTail]
  simp only [Nat.shiftLeft_eq, Nat.shiftRight_eq_div_pow, Nat.reducePow, and_31]
  iterate 2 refine congrArg₂ List.cons (congrArg encodeSym (by omega)) ?_
  rfl

theorem length_16 (s : Str) (h : s.length = 16) :
    ∃ b0 b1 b2 b3 b4 b5 b6 b7 b8 b9 b10 b11 b12 b13 b14 b15,
      s = [b0, b1, b2, b3, b4, b5, b6, b7, b8, b9, b10, b11, b12, b13, b14, b15] := by
  match s, h with
  | [b0, b1, b2, b3, b4, b5, b6, b7, b8, b9, b10, b11, b12, b13, b14, b15], _ =>
    exact ⟨b0, b1, b2, b3, b4, b5, b6, b7, b8, b9, b10, b11, b12, b13, b14, b15, rfl⟩

theorem Encode_eq_baseVals (s : Str) (h : s.length = 16) :
    Encode s = (baseVals s).map encodeSym := by
  obtain ⟨b0, b1, b2, b3, b4, b5, b6, b7, b8, b9, b10, b11, b12, b13, b14, b15, rfl⟩ :=
    length_16 s h
  rw [Encode_block, Encode_block, Encode_block]
  have : Encode [b15] = encodeTail [b15] := by
    rw [Encode]
    intro s0 s1 s2 s3 s4 r e
    simp at e
  rw [this, encodeTail_one]
  simp [baseVals]

theorem decodeLoop_map_encodeSym (olen : Nat) (vs : List Nat) (hvs : ∀ v ∈ vs, v < 32) :
    ∀ st : DecState, decodeLoop olen (vs.map encodeSym) st = .ok (decodeVals vs st) := by
  induction vs with
  | nil =>
    intro st
    simp only [List.map_nil, decodeLoop, decodeVals]
    split <;> rfl
  | cons v vs ih =>
    intro st
    have hv : v < 32 := hvs v (List.mem_cons_self _ _)
    have ih2 := ih (fun w hw => hvs w (List.mem_cons_of_mem _ hw))
    have h1 : encodeSym v ≠ padByte := encodeSym_ne_pad v hv
    have h2 : decodeSym (encodeSym v) = v := decodeSym_encodeSym v hv
    have h3 : v ≠ 255 := by omega
    simp only [List.map_cons, decodeLoop, decodeVals, h1, h2, h3, false_and, if_false, ih2]
    split <;> rfl

theorem stripNewlines_map_encodeSym (vs : List Nat) (hvs : ∀ v ∈ vs, v < 32) :
    stripNewlines (vs.map encodeSym) = vs.map encodeSym := by
  unfold stripNewlines
  rw [List.filter_eq_self]
  intro a ha
  obtain ⟨v, hv, rfl⟩ := List.mem_map.mp ha
  have := encodeSym_ne_nl v (hvs v hv)
  simp [this.1, this.2]

theorem Decode_map_encodeSym (dst : Str) (vs : List Nat) (hvs : ∀ v ∈ vs, v < 32) :
    Decode dst (vs.map encodeSym) = .ok (decodeVals vs ⟨dst, 0, 0, List.replicate 8 0, 0⟩) := by
  unfold Decode
  simp only [stripNewlines_map_encodeSym vs hvs]
  exact decodeLoop_map_encodeSym _ vs hvs _

theorem baseVals_lt (s : Str) : ∀ v ∈ baseVals s, v < 32 := by
  intro v hv
  simp only [baseVals, quantumVals, List.cons_append, List.nil_append, List.mem_cons,
    List.mem_singleton, List.not_mem_nil, or_false] at hv
  have := (s.getD 15 0).isLt
  omega

theorem toByte_eq (n : Nat) (b : Byte) (h : n % 256 = b.val) : toByte n = b :=
  Fin.ext h

theorem or3 (x y : Nat) (hx : x < 32) (hy : y < 32) :
    ((x <<< 3) % 256) ||| (y >>> 2) = x * 8 + y / 4 := by
  simp only [Nat.shiftLeft_eq, Nat.shiftRight_eq_div_pow, Nat.reducePow]
  rw [or_eq_add_of_mod _ _ 3 (by omega) (by omega)]
  omega

theorem or621 (x y z : Nat) (hy : y < 32) (hz : z < 32) :
    ((x <<< 6) % 256) ||| ((y <<< 1) % 256) ||| (z >>> 4) = x * 64 % 256 + y * 2 + z / 16 := by
  simp only [Nat.shiftLeft_eq, Nat.shiftRight_eq_div_pow, Nat.reducePow]
  rw [or_eq_add_of_mod (x * 64 % 256) (y * 2 % 256) 6 (by omega) (by omega),
    or_eq_add_of_mod _ (z / 16) 1 (by omega) (by omega)]
  omega

theorem or4 (x y : Nat) (hy : y < 32) :
    ((x <<< 4) % 256) ||| (y >>> 1) = x * 16 % 256 + y / 2 := by
  simp only [Nat.shiftLeft_eq, Nat.shiftRight_eq_div_pow, Nat.reducePow]
  rw [or_eq_add_of_mod _ _ 4 (by omega) (by omega)]

theorem or72 (x y z : Nat) (hy : y < 32) (hz : z < 32) :
    ((x <<< 7) % 256) ||| ((y <<< 2) % 256) ||| (z >>> 3) = x * 128 % 256 + y * 4 + z / 8 := by
  simp only [Nat.shiftLeft_eq, Nat.shiftRight_eq_div_pow, Nat.reducePow]
  rw [or_eq_add_of_mod (x * 128 % 256) (y * 4 % 256) 7 (by omega) (by omega),
    or_eq_add_of_mod _ (z / 8) 2 (by omega) (by omega)]
  omega

theorem or5 (x y : Nat) (hy : y < 32) :
    ((x <<< 5) % 256) ||| y = x * 32 % 256 + y := by
  simp only [Nat.shiftLeft_eq, Nat.reducePow]
  rw [or_eq_add_of_mod _ _ 5 (by omega) (by omega)]

theorem length_26 (s : List Nat) (h : s.length = 26) :
    ∃ v0 v1 v2 v3 v4 v5 v6 v7 v8 v9 v10 v11 v12 v13 v14 v15 v16 v17 v18 v19 v20 v21 v22 v23 v24
      v25, s = [v0, v1, v2, v3, v4, v5, v6, v7, v8, v9, v10, v11, v12, v13, v14, v15, v16, v17,
        v18, v19, v20, v21, v22, v23, v24, v25] := by
  match s, h with
  | [v0, v1, v2, v3, v4, v5, v6, v7, v8, v9, v10, v11, v12, v13, v14, v15, v16, v17,
        v18, v19, v20, v21, v22, v23, v24, v25], _ =>
    exact ⟨v0, v1, v2, v3, v4, v5, v6, v7, v8, v9, v10, v11, v12, v13, v14, v15, v16, v17,
        v18, v19, v20, v21, v22, v23, v24, v25, rfl⟩

theorem decodeVals_26 (vs : List Nat) (hl : vs.length = 26) (hvs : ∀ v ∈ vs, v < 32) :
    decodeVals vs ⟨List.replicate 16 0, 0, 0, List.replicate 8 0, 0⟩ = (unpackVals vs, 16) := by
  obtain ⟨v0, v1, v2, v3, v4, v5, v6, v7, v8, v9, v10, v11, v12, v13, v14, v15, v16, v17,
        v18, v19, v20, v21, v22, v23, v24, v25, rfl⟩ := length_26 vs hl
  simp only [List.mem_cons, List.mem_singleton, List.not_mem_nil, or_false, forall_eq_or_imp,
    forall_eq] at hvs
  obtain ⟨h0, h1, h2, h3, h4, h5, h6, h7, h8, h9, h10, h11, h12, h13, h14, h15, h16, h17,
        h18, h19, h20, h21, h22, h23, h24, h25⟩ := hvs
  simp [decodeVals, packQuantum, unpackVals, List.replicate, or3, or621, or4, or72, or5, *]

theorem baseVals_length (s : Str) : (baseVals s).length = 26 := rfl

theorem quantum_back (s0 s1 s2 s3 s4 : Byte) :
    let N := s0.val * 4294967296 + s1.val * 16777216 + s2.val * 65536 + s3.val * 256 + s4.val
    toByte (N / 34359738368 % 32 * 8 + N / 1073741824 % 32 / 4) = s0 ∧
    toByte (N / 1073741824 % 32 * 64 % 256 + N / 33554432 % 32 * 2 + N / 1048576 % 32 / 16) = s1 ∧
    toByte (N / 1048576 % 32 * 16 % 256 + N / 32768 % 32 / 2) = s2 ∧
    toByte (N / 32768 % 32 * 128 % 256 + N / 1024 % 32 * 4 + N / 32 % 32 / 8) = s3 ∧
    toByte (N / 32 % 32 * 32 % 256 + N % 32) = s4 := by
  have h0 := s0.isLt
  have h1 := s1.isLt
  have h2 := s2.isLt
  have h3 := s3.isLt
  have h4 := s4.isLt
  intro N
  refine ⟨toByte_eq _ _ ?_, toByte_eq _ _ ?_, toByte_eq _ _ ?_, toByte_eq _ _ ?_,
    toByte_eq _ _ ?_⟩ <;> omega

theorem unpackVals_baseVals (s : Str) (h : s.length = 16) : unpackVals (baseVals s) = s := by
  obtain ⟨b0, b1, b2, b3, b4, b5, b6, b7, b8, b9, b10, b11, b12, b13, b14, b15, rfl⟩ :=
    length_16 s h
  have q0 := quantum_back b0 b1 b2 b3 b4
  have q1 := quantum_back b5 b6 b7 b8 b9
  have q2 := quantum_back b10 b11 b12 b13 b14
  have q3 : toByte (b15.val / 8 * 8 + b15.val * 4 % 32 / 4) = b15 :=
    toByte_eq _ _ (by have := b15.isLt; omega)
  simp only [] at q0 q1 q2
  simp [unpackVals, baseVals, quantumVals, q0, q1, q2, q3]

theorem Decode_Encode (s : Str) (h : s.length = 16) :
    Decode (List.replicate 16 0) (Encode s) = .ok (s, 16) := by
  rw [Encode_eq_baseVals s h, Decode_map_encodeSym _ _ (baseVals_lt s),
    decodeVals_26 _ (baseVals_length s) (baseVals_lt s), unpackVals_baseVals s h]

/-! ### The text codec of Base -/

theorem Encode_length (s : Str) (h : s.length = 16) : (Encode s).length = 26 := by
  rw [Encode_eq_baseVals s h, List.length_map, baseVals_length]

theorem Base.ofDst_bytes (b : Base) : Base.ofDst b.bytes = b := by
  unfold Base.ofDst
  rw [dif_pos b.size]

/-- C1: decoding the text form of any Base (the zero Base included) gives the
Base back with no error: ParseBase(b.String()) = (b, nil). -/
theorem ParseBase_String (b : Base) : ParseBase b.String = (b, none) := by
  have hl : (Encode b.bytes).length = 26 := Encode_length b.bytes b.size
  have hd := Decode_Encode b.bytes b.size
  simp only [ParseBase, ParseBaseBytes, Base.UnmarshalText, Base.String, Base.MarshalText, hl,
    EncodedLen, baseLen, timeLen, randLen, Base.zero]
  simp only [Nat.reduceAdd] at hd ⊢
  rw [hd]
  simp [Base.ofDst_bytes]

/-- C10: a text whose length is neither 0 nor 26 makes Base.UnmarshalText
return the error that wraps ErrFailedParse and reports that length, for any
receiver, and so does ParseBase; a text of length 0 is no error and gives the
zero Base. -/
theorem UnmarshalText_length (base : Base) (src : Str) :
    (src.length ≠ 0 → src.length ≠ 26 →
      (base.UnmarshalText src).2 = some (.baseLength src.length) ∧
      (ParseBase src).2 = some (.baseLength src.length) ∧
      (Err.baseLength src.length).wraps .ErrFailedParse = true) ∧
    (src.length = 0 →
      base.UnmarshalText src = (Base.zero, none) ∧ ParseBase src = (Base.zero, none)) := by
  constructor
  · intro h0 h26
    simp [ParseBase, ParseBaseBytes, Base.UnmarshalText, h0, h26, EncodedLen, baseLen, timeLen,
      randLen, Err.wraps]
  · intro h0
    simp [ParseBase, ParseBaseBytes, Base.UnmarshalText, h0]

theorem UnmarshalText_length_witness :
    ((Base.zero.UnmarshalText [48, 48]).2 = some (.baseLength 2) ∧
      (ParseBase [48, 48]).2 = some (.baseLength 2) ∧
      (Err.baseLength 2).wraps .ErrFailedParse = true) ∧
    (Base.zero.UnmarshalText [] = (Base.zero, none) ∧ ParseBase [] = (Base.zero, none)) :=
  ⟨(UnmarshalText_length Base.zero [48, 48]).1 (by decide) (by decide),
   (UnmarshalText_length Base.zero []).2 rfl⟩

/-! ### Names, the separator and emptiness -/

theorem validateName_ne_nil (name : Str) (h : validateName name = true) : name ≠ [] := by
  intro e
  subst e
  simp [validateName, validateName.loop] at h

theorem lastIndexByte_ge (s : Str) (c : Byte) : -1 ≤ lastIndexByte s c := by
  induction s with
  | nil => simp [lastIndexByte]
  | cons x xs ih =>
    simp only [lastIndexByte]
    split
    · omega
    · split <;> omega

theorem lastIndexByte_lt (s : Str) (c : Byte) : lastIndexByte s c < s.length := by
  induction s with
  | nil => simp [lastIndexByte]
  | cons x xs ih =>
    simp only [lastIndexByte, List.length_cons, Nat.cast_add, Nat.cast_one]
    split
    · omega
    · split <;> omega

theorem lastIndexByte_not_mem (s : Str) (c : Byte) (h : c ∉ s) : lastIndexByte s c = -1 := by
  induction s with
  | nil => simp [lastIndexByte]
  | cons x xs ih =>
    have hx : ¬ x = c := fun e => h (e ▸ List.mem_cons_self _ _)
    have := ih (fun m => h (List.mem_cons_of_mem _ m))
    simp [lastIndexByte, this, hx]

theorem lastIndexByte_append (name t : Str) (c : Byte) (h : c ∉ t) :
    lastIndexByte (name ++ c :: t) c = name.length := by
  induction name with
  | nil => simp [lastIndexByte, lastIndexByte_not_mem t c h]
  | cons x xs ih =>
    rw [List.cons_append, lastIndexByte]
    simp only [ih, List.length_cons]
    rw [if_pos (Int.ofNat_nonneg _)]
    push_cast
    rfl

theorem allZero_iff (s : Str) : allZero s = true ↔ s = List.replicate s.length 0 := by
  induction s with
  | nil => simp [allZero]
  | cons x xs ih =>
    by_cases hx : x = 0
    · simp [allZero, hx, ih, List.replicate_succ]
    · simp only [allZero, ne_eq, hx, not_false_eq_true, ↓reduceIte, Bool.false_eq_true,
        List.length_cons, List.replicate_succ, List.cons.injEq, false_and]

theorem Base.ext_bytes (a b : Base) (h : a.bytes = b.bytes) : a = b := by
  cases a; cases b; cases h; rfl

theorem Base.Empty_iff (b : Base) : b.Empty = true ↔ b = Base.zero := by
  unfold Base.Empty
  rw [allZero_iff, b.size]
  constructor
  · intro h
    exact Base.ext_bytes _ _ h
  · intro h
    rw [h]
    rfl

theorem Base.zero_Empty : Base.zero.Empty = true := by decide

theorem ParseBase_zeros :
    Base.zero.UnmarshalText (List.replicate 26 48) = (Base.zero, none) := by decide

theorem UnmarshalText_split (id : NID) (name t : Str) (hname : validateName name = true)
    (ht : underscore ∉ t) (hne : t ≠ []) :
    id.UnmarshalText (name ++ underscore :: t) =
      match id.base.UnmarshalText t with
      | (base, some err) => (⟨id.name, base⟩, some err)
      | (base, none) => if base.Empty then (⟨[], base⟩, none) else (⟨name, base⟩, none) := by
  have hlen : 0 < name.length := List.length_pos.mpr (validateName_ne_nil name hname)
  have htl : 0 < t.length := List.length_pos.mpr hne
  have hcut : lastIndexByte (name ++ underscore :: t) underscore = (name.length : Int) :=
    lastIndexByte_append name t underscore ht
  have h1 : ¬ ((name ++ underscore :: t).length = 0) := by simp
  have h2 : ¬ (((name.length : Nat) : Int) ≤ 0 ∨ ((name.length : Nat) : Int) =
      ((name ++ underscore :: t).length : Int) - 1) := by
    simp only [List.length_append, List.length_cons]
    push_cast
    omega
  have h3 : List.drop (name.length + 1) (name ++ underscore :: t) = t := by
    rw [List.drop_append_eq_append_drop]
    simp
  have h4 : List.take name.length (name ++ underscore :: t) = name := List.take_left' rfl
  unfold NID.UnmarshalText
  simp only [hcut, h1, h2, if_false, Int.toNat_ofNat, h3, h4, hname, Bool.not_true,
    Bool.false_eq_true]

/-- C7: for every grammar-valid name, parsing name + "_" + twenty-six '0'
succeeds and gives the canonical empty NID: the name is discarded. -/
theorem Parse_zero_base (name : Str) (h : validateName name = true) :
    Parse (name ++ underscore :: List.replicate 26 48) = (NID.zero, none) := by
  unfold Parse
  rw [UnmarshalText_split NID.zero name _ h (by decide) (by decide)]
  have : NID.zero.base = Base.zero := rfl
  rw [this, ParseBase_zeros]
  rfl

theorem Parse_zero_base_witness :
    validateName [98, 111, 111, 107] = true ∧
    Parse ([98, 111, 111, 107] ++ underscore :: List.replicate 26 48) = (NID.zero, none) :=
  ⟨by decide, Parse_zero_base [98, 111, 111, 107] (by decide)⟩
theorem allZero_forall (s : Str) : allZero s = true ↔ ∀ x ∈ s, x = 0 := by
  induction s with
  | nil => simp [allZero]
  | cons x xs ih =>
    by_cases hx : x = 0
    · simp [allZero, hx, ih]
    · simp [allZero, hx]

theorem allZero_putUint64 (v : Nat) (hv : v < 2 ^ 64) : allZero (putUint64 v) = true ↔ v = 0 := by
  rw [allZero_forall]
  simp only [putUint64, List.mem_cons, List.mem_singleton, List.not_mem_nil, or_false,
    forall_eq_or_imp, forall_eq]
  simp only [toByte, Fin.ext_iff, Nat.shiftRight_eq_div_pow, Nat.reducePow, Fin.val_zero]
  simp only [Nat.reducePow] at hv
  omega

theorem toUint64_lt (x : Int) : toUint64 x < 2 ^ 64 := by
  unfold toUint64
  omega

theorem toUint64_eq_zero (x : Int) (h1 : -2 ^ 63 ≤ x) (h2 : x < 2 ^ 63) :
    toUint64 x = 0 ↔ x = 0 := by
  unfold toUint64
  omega

/-- C8: on the bind, rebind and parse paths the two emptiness conditions go
together: for an initialized Naming, the results of Apply and Update, and the
result of every successful Parse, have an empty name iff they have an all-zero
base; each is either NID{} or has a non-empty name and a non-empty base. -/
theorem emptiness_travels (n : Naming) (hn : n.name ≠ []) (b : Base) (id : NID) (s : Str) :
    (∃ r, n.Apply b = .ok r ∧ (r.name = [] ↔ r.base.Empty = true) ∧
      (r = NID.zero ∨ (r.name ≠ [] ∧ r.base.Empty = false))) ∧
    (∃ r, n.Update id = .ok r ∧ (r.name = [] ↔ r.base.Empty = true) ∧
      (r = NID.zero ∨ (r.name ≠ [] ∧ r.base.Empty = false))) ∧
    (∀ r, Parse s = (r, none) → (r.name = [] ↔ r.base.Empty = true) ∧
      (r = NID.zero ∨ (r.name ≠ [] ∧ r.base.Empty = false))) := by
  have hz : NID.zero.name = [] ∧ NID.zero.base.Empty = true := ⟨rfl, by decide⟩
  refine ⟨?_, ?_, ?_⟩
  · unfold Naming.Apply Naming.initialized
    rw [if_neg hn]
    by_cases hb : b.Empty = true
    · exact ⟨NID.zero, by simp [hb], by simp [hz], Or.inl rfl⟩
    · refine ⟨⟨n.name, b⟩, by simp [hb], by simp [hn, hb], Or.inr ⟨hn, by simpa using hb⟩⟩
  · unfold Naming.Update Naming.initialized
    rw [if_neg hn]
    by_cases hb : id.Empty = true
    · exact ⟨NID.zero, by simp [hb], by simp [hz], Or.inl rfl⟩
    · have hb2 : id.base.Empty = false := by
        simp only [NID.Empty, Bool.or_eq_true, not_or] at hb
        simpa using hb.2
      refine ⟨⟨n.name, id.base⟩, by simp [hb], by simp [hn, hb2], Or.inr ⟨hn, hb2⟩⟩
  · intro r hr
    unfold Parse NID.UnmarshalText at hr
    split at hr
    · cases hr
      exact ⟨by simp [hz], Or.inl rfl⟩
    · simp only at hr
      split at hr
      · cases hr
      · split at hr
        · cases hr
        · rename_i hname
          split at hr
          · cases hr
          · rename_i base hbase
            split at hr
            · rename_i he
              cases hr
              refine ⟨by simp [he], Or.inl ?_⟩
              rw [(Base.Empty_iff base).mp he]
              rfl
            · rename_i he
              cases hr
              have hv := validateName_ne_nil _ (by simpa using hname)
              exact ⟨by simp [hv, he], Or.inr ⟨hv, by simpa using he⟩⟩

theorem emptiness_travels_witness :
    (∃ r, (Naming.mk [97]).Apply Base.zero = .ok r ∧ (r.name = [] ↔ r.base.Empty = true) ∧
      (r = NID.zero ∨ (r.name ≠ [] ∧ r.base.Empty = false))) ∧
    (∃ r, (Naming.mk [97]).Update NID.zero = .ok r ∧ (r.name = [] ↔ r.base.Empty = true) ∧
      (r = NID.zero ∨ (r.name ≠ [] ∧ r.base.Empty = false))) ∧
    (∀ r, Parse [] = (r, none) → (r.name = [] ↔ r.base.Empty = true) ∧
      (r = NID.zero ∨ (r.name ≠ [] ∧ r.base.Empty = false))) :=
  emptiness_travels (Naming.mk [97]) (by decide) Base.zero NID.zero []

/-! ### Generation -/

theorem allZero_append (a b : Str) : allZero (a ++ b) = (allZero a && allZero b) := by
  induction a with
  | nil => simp [allZero]
  | cons x xs ih =>
    by_cases hx : x = 0
    · simp [allZero, hx, ih]
    · simp [allZero, hx]

theorem allZero_ofFn (r : Fin 8 → Byte) : allZero (List.ofFn r) = true ↔ ∀ i, r i = 0 := by
  rw [allZero_forall]
  constructor
  · intro h i
    exact h _ ((List.mem_ofFn r _).mpr ⟨i, rfl⟩)
  · intro h x hx
    obtain ⟨i, rfl⟩ := (List.mem_ofFn r x).mp hx
    exact h i

theorem NewBaseAt_Empty (ms : Int) (h1 : -2 ^ 63 ≤ ms) (h2 : ms < 2 ^ 63) (r : Fin 8 → Byte) :
    ∃ b, NewBaseAt ms (some r) = .ok b ∧ (b.Empty = true ↔ (ms = 0 ∧ ∀ i, r i = 0)) := by
  refine ⟨_, rfl, ?_⟩
  simp only [Base.Empty, allZero_append, Bool.and_eq_true, allZero_ofFn,
    allZero_putUint64 _ (toUint64_lt ms), toUint64_eq_zero ms h1 h2]

/-- C9, the claim as stated fails: at the Unix epoch (millisecond 0), when the
random source yields eight zero bytes, NewAt returns an identifier with a
non-empty name and the all-zero base, and NewBaseAt returns the empty Base. -/
theorem NewAt_epoch_zero_random :
    (Naming.mk [97]).NewAt 0 (some (fun _ => 0)) = .ok ⟨[97], Base.zero⟩ ∧
    (⟨[97], Base.zero⟩ : NID).name ≠ [] ∧ (⟨[97], Base.zero⟩ : NID).base.Empty = true ∧
    NewBaseAt 0 (some (fun _ => 0)) = .ok Base.zero := by decide

/-- C9, amended: for an initialized Naming, a millisecond time ms in the signed
64-bit range and eight bytes r read from the random source, NewAt returns an
identifier with the Naming's non-empty name whose base is NewBaseAt of the same
inputs; that base is all zero exactly when ms = 0 and every byte of r is zero,
so the identifier is non-empty in every other case. -/
theorem NewAt_emptiness (n : Naming) (hn : n.name ≠ []) (ms : Int) (h1 : -2 ^ 63 ≤ ms)
    (h2 : ms < 2 ^ 63) (r : Fin 8 → Byte) :
    ∃ id, n.NewAt ms (some r) = .ok id ∧ NewBaseAt ms (some r) = .ok id.base ∧
      id.name = n.name ∧ id.name ≠ [] ∧
      (id.base.Empty = true ↔ (ms = 0 ∧ ∀ i, r i = 0)) ∧
      ((ms ≠ 0 ∨ ∃ i, r i ≠ 0) → (id.name = [] ↔ id.base.Empty = true)) := by
  obtain ⟨b, hb, he⟩ := NewBaseAt_Empty ms h1 h2 r
  refine ⟨⟨n.name, b⟩, ?_, hb, rfl, hn, he, ?_⟩
  · unfold Naming.NewAt Naming.initialized
    rw [if_neg hn, hb]
  · intro h
    have : ¬ (b.Empty = true) := by
      rw [he]
      rintro ⟨h0, hr⟩
      rcases h with h | ⟨i, hi⟩
      · exact h h0
      · exact hi (hr i)
    simp [hn, this]

theorem NewAt_emptiness_witness :
    ∃ id, (Naming.mk [97]).NewAt 1 (some (fun _ => 0)) = .ok id ∧
      NewBaseAt 1 (some (fun _ => 0)) = .ok id.base ∧
      id.name = [97] ∧ id.name ≠ [] ∧
      (id.base.Empty = true ↔ ((1 : Int) = 0 ∧ ∀ i : Fin 8, (fun _ => (0 : Byte)) i = 0)) ∧
      (((1 : Int) ≠ 0 ∨ ∃ i : Fin 8, (fun _ => (0 : Byte)) i ≠ 0) →
        (id.name = [] ↔ id.base.Empty = true)) :=
  NewAt_emptiness (Naming.mk [97]) (by decide) 1 (by decide) (by decide) (fun _ => 0)

/-! ### The name grammar -/

theorem mem_charClass (cs : List Byte) (x : Str) :
    x ∈ (charClass cs).matches' ↔ ∃ c ∈ cs, x = [c] := by
  induction cs with
  | nil =>
    simp only [charClass, List.foldr_nil, List.not_mem_nil, false_and, exists_false, iff_false]
    intro h
    exact h
  | cons c cs ih =>
    have e : charClass (c :: cs) = RegularExpression.plus (RegularExpression.char c) (charClass cs) :=
      rfl
    rw [e]
    have e2 : (RegularExpression.plus (RegularExpression.char c) (charClass cs)).matches' =
        (RegularExpression.char c).matches' + (charClass cs).matches' := rfl
    rw [e2, Language.mem_add, ih, RegularExpression.matches'_char]
    simp only [List.mem_cons, exists_eq_or_imp]
    rfl

theorem mem_lowerRE (x : Str) : x ∈ lowerRE.matches' ↔ ∃ c, isLower c ∧ x = [c] := by
  unfold lowerRE
  rw [mem_charClass]
  have : ∀ c : Byte, c ∈ ([97, 98, 99, 100, 101, 102, 103, 104, 105, 106, 107, 108, 109, 110,
    111, 112, 113, 114, 115, 116, 117, 118, 119, 120, 121, 122] : List Byte) ↔ isLower c := by
    intro c
    simp only [List.mem_cons, List.mem_singleton, List.not_mem_nil, or_false, isLower,
      Fin.ext_iff, Fin.le_def]
    have := c.isLt
    norm_num
    omega
  simp only [this]

theorem mem_digitRE (x : Str) : x ∈ digitRE.matches' ↔ ∃ c, isDigit c ∧ x = [c] := by
  unfold digitRE
  rw [mem_charClass]
  have : ∀ c : Byte, c ∈ ([48, 49, 50, 51, 52, 53, 54, 55, 56, 57] : List Byte) ↔ isDigit c := by
    intro c
    simp only [List.mem_cons, List.mem_singleton, List.not_mem_nil, or_false, isDigit,
      Fin.ext_iff, Fin.le_def]
    have := c.isLt
    norm_num
    omega
  simp only [this]

theorem mem_alnumRE (x : Str) :
    x ∈ alnumRE.matches' ↔ ∃ c, (isLower c ∨ isDigit c) ∧ x = [c] := by
  have e : alnumRE.matches' = lowerRE.matches' + digitRE.matches' := rfl
  rw [e, Language.mem_add, mem_lowerRE, mem_digitRE]
  constructor
  · rintro (⟨c, h, rfl⟩ | ⟨c, h, rfl⟩)
    · exact ⟨c, Or.inl h, rfl⟩
    · exact ⟨c, Or.inr h, rfl⟩
  · rintro ⟨c, h | h, rfl⟩
    · exact Or.inl ⟨c, h, rfl⟩
    · exact Or.inr ⟨c, h, rfl⟩
theorem kstar_unfold {α : Type} (A S : Language α) :
    KStar.kstar A * KStar.kstar (S * (A * KStar.kstar A)) =
      1 + S * (A * (KStar.kstar A * KStar.kstar (S * (A * KStar.kstar A)))) +
        A * (KStar.kstar A * KStar.kstar (S * (A * KStar.kstar A))) := by
  have h1 : ∀ X : Language α, KStar.kstar A * X = X + A * (KStar.kstar A * X) := by
    intro X
    have h := congrArg (fun Y => Y * X) (Language.one_add_self_mul_kstar_eq_kstar A)
    simp only [add_mul, one_mul, mul_assoc] at h
    exact h.symm
  have h2 := Language.one_add_self_mul_kstar_eq_kstar (S * (A * KStar.kstar A))
  calc KStar.kstar A * KStar.kstar (S * (A * KStar.kstar A))
      = KStar.kstar (S * (A * KStar.kstar A)) +
          A * (KStar.kstar A * KStar.kstar (S * (A * KStar.kstar A))) := h1 _
    _ = (1 + S * (A * KStar.kstar A) * KStar.kstar (S * (A * KStar.kstar A))) +
          A * (KStar.kstar A * KStar.kstar (S * (A * KStar.kstar A))) := by rw [h2]
    _ = _ := by simp only [mul_assoc]

theorem tailLang_eq :
    tailLang = 1 + (RegularExpression.char underscore).matches' * (alnumRE.matches' * tailLang) +
      alnumRE.matches' * tailLang :=
  kstar_unfold _ _

theorem nameRE_matches : nameRE.matches' = lowerRE.matches' * tailLang := by
  show lowerRE.matches' * KStar.kstar alnumRE.matches' * _ = _
  rw [mul_assoc]
  rfl

theorem mem_alnum_mul (L : Language Byte) (x : Str) :
    x ∈ alnumRE.matches' * L ↔ ∃ c r, (isLower c ∨ isDigit c) ∧ x = c :: r ∧ r ∈ L := by
  rw [Language.mem_mul]
  constructor
  · rintro ⟨a, ha, b, hb, rfl⟩
    obtain ⟨c, hc, rfl⟩ := (mem_alnumRE a).mp ha
    exact ⟨c, b, hc, rfl, hb⟩
  · rintro ⟨c, r, hc, rfl, hr⟩
    exact ⟨[c], (mem_alnumRE _).mpr ⟨c, hc, rfl⟩, r, hr, rfl⟩

theorem mem_tailLang (x : Str) :
    x ∈ tailLang ↔ x = [] ∨ (∃ r, x = underscore :: r ∧ r ∈ alnumRE.matches' * tailLang) ∨
      x ∈ alnumRE.matches' * tailLang := by
  conv_lhs => rw [tailLang_eq]
  rw [Language.mem_add, Language.mem_add, Language.mem_one, Language.mem_mul, or_assoc]
  refine or_congr Iff.rfl (or_congr ?_ Iff.rfl)
  rw [RegularExpression.matches'_char]
  constructor
  · rintro ⟨a, ha, b, hb, rfl⟩
    have : a = [underscore] := ha
    subst this
    exact ⟨b, rfl, hb⟩
  · rintro ⟨r, rfl, hr⟩
    exact ⟨[underscore], rfl, r, hr, rfl⟩

theorem loop_iff (rest : Str) : ∀ i, 0 < i →
    (validateName.loop rest i true = true ↔ rest ∈ tailLang) ∧
    (validateName.loop rest i false = true ↔ rest ∈ alnumRE.matches' * tailLang) := by
  induction rest with
  | nil =>
    intro i _
    constructor
    · simp [validateName.loop, mem_tailLang]
    · simp [validateName.loop, mem_alnum_mul]
  | cons r rs ih =>
    intro i hi
    have ih1 := (ih (i + 1) (Nat.succ_pos _)).1
    have ih2 := (ih (i + 1) (Nat.succ_pos _)).2
    have hi0 : ¬ (i = 0) := by omega
    rw [mem_tailLang, mem_alnum_mul]
    by_cases h95 : r = 95
    · subst h95
      have hna : ¬ (isLower (95 : Byte) ∨ isDigit (95 : Byte)) := by decide
      constructor
      · simp only [validateName.loop, if_true, Bool.not_true, Bool.false_eq_true, if_false, ih2]
        constructor
        · intro h
          exact Or.inr (Or.inl ⟨rs, rfl, h⟩)
        · rintro (h | ⟨r, h, hr⟩ | ⟨c, r, hc, h, _⟩)
          · cases h
          · cases h
            exact hr
          · cases h
            exact absurd hc hna
      · simp only [validateName.loop, if_true, Bool.not_false, Bool.false_eq_true, false_iff]
        rintro ⟨c, r, hc, h, _⟩
        cases h
        exact hna hc
    · by_cases hd : 48 ≤ r ∧ r ≤ 57
      · have key : ∀ ok, validateName.loop (r :: rs) i ok = validateName.loop rs (i + 1) true := by
          intro ok
          simp only [validateName.loop, h95, hd, hi0, if_false, and_self, if_true]
        rw [key, key, ih1]
        constructor
        · constructor
          · intro h
            exact Or.inr (Or.inr ⟨r, rs, Or.inr hd, rfl, h⟩)
          · rintro (h | ⟨r', h, _⟩ | ⟨c, r', _, h, hr⟩)
            · cases h
            · cases h
              exact absurd rfl h95
            · cases h
              exact hr
        · constructor
          · intro h
            exact ⟨r, rs, Or.inr hd, rfl, h⟩
          · rintro ⟨c, r', _, h, hr⟩
            cases h
            exact hr
      · by_cases hl : 97 ≤ r ∧ r ≤ 122
        · have key : ∀ ok, validateName.loop (r :: rs) i ok = validateName.loop rs (i + 1) true := by
            intro ok
            simp only [validateName.loop, h95, hd, hl, if_false, and_self, if_true]
          rw [key, key, ih1]
          constructor
          · constructor
            · intro h
              exact Or.inr (Or.inr ⟨r, rs, Or.inl hl, rfl, h⟩)
            · rintro (h | ⟨r', h, _⟩ | ⟨c, r', _, h, hr⟩)
              · cases h
              · cases h
                exact absurd rfl h95
              · cases h
                exact hr
          · constructor
            · intro h
              exact ⟨r, rs, Or.inl hl, rfl, h⟩
            · rintro ⟨c, r', _, h, hr⟩
              cases h
              exact hr
        · have key : ∀ ok, validateName.loop (r :: rs) i ok = false := by
            intro ok
            simp only [validateName.loop, h95, hd, hl, if_false]
          have hna : ¬ (isLower r ∨ isDigit r) := by
            rintro (h | h)
            · exact hl h
            · exact hd h
          rw [key, key]
          constructor
          · simp only [Bool.false_eq_true, false_iff]
            rintro (h | ⟨r', h, _⟩ | ⟨c, r', hc, h, _⟩)
            · cases h
            · cases h
              exact absurd rfl h95
            · cases h
              exact hna hc
          · simp only [Bool.false_eq_true, false_iff]
            rintro ⟨c, r', hc, h, _⟩
            cases h
            exact hna hc

theorem validateName_iff_nameRE (s : Str) : validateName s = true ↔ s ∈ nameRE.matches' := by
  rw [nameRE_matches, Language.mem_mul]
  cases s with
  | nil =>
    simp only [validateName, validateName.loop, Bool.false_eq_true, false_iff]
    rintro ⟨a, ha, b, _, h⟩
    obtain ⟨c, _, rfl⟩ := (mem_lowerRE a).mp ha
    cases h
  | cons r rs =>
    by_cases hl : 97 ≤ r ∧ r ≤ 122
    · have h95 : ¬ (r = 95) := by
        rintro rfl
        exact absurd hl (by decide)
      have hd : ¬ (48 ≤ r ∧ r ≤ 57) := by
        intro hd
        have h1 := hl.1
        have h2 := hd.2
        simp only [Fin.le_def] at h1 h2
        norm_num at h1 h2
        omega
      have key : validateName (r :: rs) = validateName.loop rs 1 true := by
        simp only [validateName, validateName.loop, h95, hd, hl, if_false, and_self, if_true,
          Nat.zero_add]
      rw [key, (loop_iff rs 1 Nat.one_pos).1]
      constructor
      · intro h
        exact ⟨[r], (mem_lowerRE _).mpr ⟨r, hl, rfl⟩, rs, h, rfl⟩
      · rintro ⟨a, ha, b, hb, h⟩
        obtain ⟨c, _, rfl⟩ := (mem_lowerRE a).mp ha
        cases h
        exact hb
    · have key : validateName (r :: rs) = false := by
        unfold validateName
        rw [validateName.loop]
        by_cases h95 : r = 95
        · simp [h95]
        · by_cases hd : 48 ≤ r ∧ r ≤ 57
          · simp [h95, hd]
          · simp only [h95, hd, hl, if_false]
      rw [key]
      simp only [Bool.false_eq_true, false_iff]
      rintro ⟨a, ha, b, _, h⟩
      obtain ⟨c, hc, rfl⟩ := (mem_lowerRE a).mp ha
      cases h
      exact hl hc
theorem loop_trailing (t : Str) : ∀ i ok, validateName.loop (t ++ [95]) i ok = false := by
  induction t with
  | nil =>
    intro i ok
    cases ok <;> simp [validateName.loop]
  | cons r rs ih =>
    intro i ok
    rw [List.cons_append, validateName.loop]
    split
    · split
      · rfl
      · exact ih _ _
    · split
      · split
        · rfl
        · exact ih _ _
      · split
        · exact ih _ _
        · rfl

theorem loop_doubled (t u : Str) :
    ∀ i ok, validateName.loop (t ++ 95 :: 95 :: u) i ok = false := by
  induction t with
  | nil =>
    intro i ok
    cases ok <;> simp [validateName.loop]
  | cons r rs ih =>
    intro i ok
    rw [List.cons_append, validateName.loop]
    split
    · split
      · rfl
      · exact ih _ _
    · split
      · split
        · rfl
        · exact ih _ _
      · split
        · exact ih _ _
        · rfl

/-- C5: validateName accepts exactly the strings matched by
[a-z][a-z0-9]*(_[a-z0-9]+)*, over all byte strings; in particular it rejects
the empty string, a leading digit, and a leading, trailing or doubled
underscore. -/
theorem validateName_iff_regex (s : Str) :
    (validateName s = true ↔ s ∈ nameRE.matches') ∧
    validateName [] = false ∧
    (∀ (d : Fin 10) (t : Str), validateName (toByte (48 + d.val) :: t) = false) ∧
    (∀ t : Str, validateName (95 :: t) = false) ∧
    (∀ t : Str, validateName (t ++ [95]) = false) ∧
    (∀ t u : Str, validateName (t ++ 95 :: 95 :: u) = false) := by
  refine ⟨validateName_iff_nameRE s, rfl, ?_, ?_, ?_, ?_⟩
  · intro d t
    have h : ∀ d : Fin 10, toByte (48 + d.val) ≠ 95 ∧
        (48 ≤ toByte (48 + d.val) ∧ toByte (48 + d.val) ≤ 57) := by decide
    simp [validateName, validateName.loop, (h d).1, (h d).2]
  · intro t
    simp [validateName, validateName.loop]
  · intro t
    exact loop_trailing t 0 false
  · intro t u
    exact loop_doubled t u 0 false


/-! ### Parsing a named identifier -/

theorem encodeSym_ne_underscore : ∀ v < 32, encodeSym v ≠ underscore := by decide

theorem underscore_not_mem_Encode (s : Str) (h : s.length = 16) : underscore ∉ Encode s := by
  rw [Encode_eq_baseVals s h]
  intro hm
  obtain ⟨v, hv, e⟩ := List.mem_map.mp hm
  exact encodeSym_ne_underscore v (baseVals_lt s v hv) e

theorem Base.UnmarshalText_Encode (base b : Base) :
    base.UnmarshalText (Encode b.bytes) = (b, none) := by
  have hl : (Encode b.bytes).length = 26 := Encode_length b.bytes b.size
  have hd := Decode_Encode b.bytes b.size
  simp only [Base.UnmarshalText, hl, EncodedLen, baseLen, timeLen, randLen, Base.zero]
  simp only [Nat.reduceAdd] at hd ⊢
  rw [hd]
  simp [Base.ofDst_bytes]

theorem Base.UnmarshalText_wraps (base : Base) (src : Str) (e : Err)
    (h : (base.UnmarshalText src).2 = some e) : e.wraps .ErrFailedParse = true := by
  unfold Base.UnmarshalText at h
  simp only at h
  split at h
  · cases h
  · split at h
    · cases h
      rfl
    · split at h
      · cases h
        rfl
      · cases h

theorem Base.UnmarshalText_receiver (b1 b2 : Base) (src : Str) :
    (b1.UnmarshalText src).2 = (b2.UnmarshalText src).2 := by
  unfold Base.UnmarshalText
  simp only
  split
  · rfl
  · split
    · rfl
    · split <;> rfl

theorem exists_last_split (s : Str) (c : Byte) (h : c ∈ s) :
    ∃ name t, s = name ++ c :: t ∧ c ∉ t := by
  induction s with
  | nil => cases h
  | cons x xs ih =>
    by_cases hc : c ∈ xs
    · obtain ⟨name, t, e, ht⟩ := ih hc
      exact ⟨x :: name, t, by rw [e]; rfl, ht⟩
    · have hx : c = x := by
        rcases List.mem_cons.mp h with e | e
        · exact e
        · exact absurd e hc
      exact ⟨[], xs, by rw [hx]; rfl, hc⟩

theorem UnmarshalText_cut (id : NID) (name t : Str) (ht : underscore ∉ t) :
    id.UnmarshalText (name ++ underscore :: t) =
      if name = [] ∨ t = [] then (id, some (.namedIdentifier (name ++ underscore :: t)))
      else if validateName name = false then (id, some (.identifierName name))
      else
        match id.base.UnmarshalText t with
        | (base, some err) => (⟨id.name, base⟩, some err)
        | (base, none) => if base.Empty then (⟨[], base⟩, none) else (⟨name, base⟩, none) := by
  have hcut : lastIndexByte (name ++ underscore :: t) underscore = (name.length : Int) :=
    lastIndexByte_append name t underscore ht
  have h1 : ¬ ((name ++ underscore :: t).length = 0) := by simp
  by_cases hn : name = []
  · subst hn
    unfold NID.UnmarshalText
    simp only [hcut, h1, if_false]
    simp
  · by_cases hte : t = []
    · subst hte
      unfold NID.UnmarshalText
      simp only [hcut, h1, if_false]
      simp
    · have hlen : 0 < name.length := List.length_pos.mpr hn
      have htl : 0 < t.length := List.length_pos.mpr hte
      have h2 : ¬ (((name.length : Nat) : Int) ≤ 0 ∨ ((name.length : Nat) : Int) =
          ((name ++ underscore :: t).length : Int) - 1) := by
        simp only [List.length_append, List.length_cons]
        push_cast
        omega
      have h4 : List.take name.length (name ++ underscore :: t) = name := List.take_left' rfl
      by_cases hv : validateName name = true
      · rw [UnmarshalText_split id name t hv ht hte]
        simp only [hn, hte, hv, or_self, if_false, Bool.true_eq_false]
      · have hv' : validateName name = false := by simpa using hv
        unfold NID.UnmarshalText
        simp only [hcut, h1, h2, if_false, Int.toNat_ofNat, h4, hv']
        simp [hn, hte]

theorem Parse_cut (name t : Str) (ht : underscore ∉ t) :
    Parse (name ++ underscore :: t) =
      if name = [] ∨ t = [] then (NID.zero, some (.namedIdentifier (name ++ underscore :: t)))
      else if validateName name = false then (NID.zero, some (.identifierName name))
      else
        match ParseBase t with
        | (base, some err) => (⟨[], base⟩, some err)
        | (base, none) => if base.Empty then (⟨[], base⟩, none) else (⟨name, base⟩, none) := by
  unfold Parse
  rw [UnmarshalText_cut NID.zero name t ht]
  rfl

theorem Parse_wraps (s : Str) (e : Err) (h : (Parse s).2 = some e) :
    e.wraps .ErrFailedParse = true := by
  by_cases hs : s = []
  · subst hs
    cases h
  · by_cases hm : underscore ∈ s
    · obtain ⟨name, t, rfl, ht⟩ := exists_last_split s underscore hm
      rw [Parse_cut name t ht] at h
      split at h
      · cases h
        rfl
      · split at h
        · cases h
          rfl
        · have hw := Base.UnmarshalText_wraps Base.zero t e
          unfold ParseBase ParseBaseBytes at h
          revert h hw
          generalize Base.zero.UnmarshalText t = r
          rcases r with ⟨base, _ | err⟩
          · intro h _
            simp only at h
            split at h <;> cases h
          · intro h hw
            exact hw h
    · have hcut := lastIndexByte_not_mem s underscore hm
      have h0 : ¬ (s.length = 0) := fun e0 => hs (List.length_eq_zero.mp e0)
      unfold Parse NID.UnmarshalText at h
      simp only [hcut, h0, if_false] at h
      simp at h
      cases h
      rfl

/-- C2: for every NID n that is the zero value NID{} or has a grammar-valid
name and a non-empty base, Parse(n.String()) returns n and no error. -/
theorem Parse_String (n : NID)
    (h : n = NID.zero ∨ (validateName n.name = true ∧ n.base.Empty = false)) :
    Parse n.String = (n, none) := by
  rcases h with rfl | ⟨hv, he⟩
  · rfl
  · have hn : n.name ≠ [] := validateName_ne_nil n.name hv
    have hl : ¬ (n.name.length = 0) := fun e => hn (List.length_eq_zero.mp e)
    have hs : n.String = n.name ++ underscore :: Encode n.base.bytes := by
      simp [NID.String, NID.MarshalText, hl, he, Base.String, Base.MarshalText]
    have hne : Encode n.base.bytes ≠ [] := by
      intro e
      have := Encode_length n.base.bytes n.base.size
      rw [e] at this
      cases this
    rw [hs, Parse_cut n.name _ (underscore_not_mem_Encode _ n.base.size)]
    simp only [hn, hne, or_self, if_false, hv, Bool.true_eq_false]
    unfold ParseBase ParseBaseBytes
    rw [Base.UnmarshalText_Encode]
    simp [he]

theorem Parse_String_witness :
    (NID.mk [97] ⟨List.replicate 15 0 ++ [1], by decide⟩ = NID.zero ∨
      (validateName (NID.mk [97] ⟨List.replicate 15 0 ++ [1], by decide⟩).name = true ∧
        (NID.mk [97] ⟨List.replicate 15 0 ++ [1], by decide⟩).base.Empty = false)) ∧
    Parse (NID.mk [97] ⟨List.replicate 15 0 ++ [1], by decide⟩).String =
      (NID.mk [97] ⟨List.replicate 15 0 ++ [1], by decide⟩, none) :=
  ⟨Or.inr ⟨by decide, by decide⟩,
    Parse_String (NID.mk [97] ⟨List.replicate 15 0 ++ [1], by decide⟩) (Or.inr ⟨by decide, by decide⟩)⟩

theorem Parse_no_underscore (s : Str) (hs : s ≠ []) (hm : underscore ∉ s) :
    Parse s = (NID.zero, some (.namedIdentifier s)) := by
  have hcut := lastIndexByte_not_mem s underscore hm
  have h0 : ¬ (s.length = 0) := fun e0 => hs (List.length_eq_zero.mp e0)
  unfold Parse NID.UnmarshalText
  simp only [hcut, h0, if_false]
  simp

theorem Base.UnmarshalText_ok_length (base : Base) (src : Str)
    (h : (base.UnmarshalText src).2 = none) : src.length = 0 ∨ src.length = 26 := by
  unfold Base.UnmarshalText at h
  simp only at h
  split at h
  · left
    assumption
  · split at h
    · cases h
    · right
      rename_i h26
      simpa [EncodedLen, baseLen, timeLen, randLen] using h26

theorem Parse_ok_of_split (name t : Str) (ht : underscore ∉ t) (hv : validateName name = true)
    (hte : t ≠ []) (hb : (ParseBase t).2 = none) :
    Parse (name ++ underscore :: t) =
      if (ParseBase t).1.Empty then (⟨[], (ParseBase t).1⟩, none)
      else (⟨name, (ParseBase t).1⟩, none) := by
  rw [Parse_cut name t ht]
  have hn := validateName_ne_nil name hv
  simp only [hn, hte, or_self, if_false, hv, Bool.true_eq_false]
  revert hb
  generalize ParseBase t = r
  rcases r with ⟨base, _ | err⟩
  · intro _
    rfl
  · intro hb
    cases hb

theorem Parse_err_of_split (name t : Str) (ht : underscore ∉ t)
    (h : name = [] ∨ t = [] ∨ validateName name = false ∨ (ParseBase t).2 ≠ none) :
    (Parse (name ++ underscore :: t)).2 ≠ none := by
  rw [Parse_cut name t ht]
  by_cases h1 : name = [] ∨ t = []
  · rw [if_pos h1]
    simp
  · rw [if_neg h1]
    by_cases h2 : validateName name = false
    · rw [if_pos h2]
      simp
    · rw [if_neg h2]
      have hb : (ParseBase t).2 ≠ none := by
        rcases h with h | h | h | h
        · exact absurd (Or.inl h) h1
        · exact absurd (Or.inr h) h1
        · exact absurd h h2
        · exact h
      revert hb
      generalize ParseBase t = r
      rcases r with ⟨base, _ | err⟩
      · intro hb
        exact absurd rfl hb
      · intro _
        simp

/-- C6: Parse cuts at the last underscore and succeeds exactly on well-formed
text. For a non-empty s, Parse(s) returns no error iff s = name + "_" + t with
no underscore in t, a grammar-valid name and a 26-byte t that ParseBase
accepts; whenever it fails the error wraps ErrFailedParse, and it fails when
there is no underscore, when the last underscore is at position 0 or is the
last byte, when the name is invalid and when ParseBase rejects t; on success
with a non-empty decoded base the result is that name with that base. -/
theorem Parse_succeeds_iff (s : Str) (hs : s ≠ []) :
    ((Parse s).2 = none ↔
      ∃ name t, s = name ++ underscore :: t ∧ underscore ∉ t ∧ validateName name = true ∧
        t.length = 26 ∧ (ParseBase t).2 = none) ∧
    ((Parse s).2 ≠ none → ∃ e, (Parse s).2 = some e ∧ e.wraps .ErrFailedParse = true) ∧
    (underscore ∉ s → (Parse s).2 ≠ none) ∧
    (∀ name t, s = name ++ underscore :: t → underscore ∉ t →
      (name = [] ∨ t = [] ∨ validateName name = false ∨ (ParseBase t).2 ≠ none) →
      (Parse s).2 ≠ none) ∧
    (∀ name t b, s = name ++ underscore :: t → underscore ∉ t → validateName name = true →
      ParseBase t = (b, none) → b.Empty = false → Parse s = (⟨name, b⟩, none)) := by
  refine ⟨⟨?_, ?_⟩, ?_, ?_, ?_, ?_⟩
  · intro h
    by_cases hm : underscore ∈ s
    · obtain ⟨name, t, rfl, ht⟩ := exists_last_split s underscore hm
      refine ⟨name, t, rfl, ht, ?_⟩
      have hne : ¬ (name = [] ∨ t = [] ∨ validateName name = false ∨ (ParseBase t).2 ≠ none) :=
        fun hc => Parse_err_of_split name t ht hc h
      simp only [not_or, not_not] at hne
      obtain ⟨_, hte, hv, hb⟩ := hne
      refine ⟨by simpa using hv, ?_, hb⟩
      rcases Base.UnmarshalText_ok_length Base.zero t hb with h0 | h26
      · exact absurd (List.length_eq_zero.mp h0) hte
      · exact h26
    · rw [Parse_no_underscore s hs hm] at h
      cases h
  · rintro ⟨name, t, rfl, ht, hv, hl, hb⟩
    have hte : t ≠ [] := by
      intro e
      rw [e] at hl
      cases hl
    rw [Parse_ok_of_split name t ht hv hte hb]
    split <;> rfl
  · intro h
    cases he : (Parse s).2 with
    | none => exact absurd he h
    | some e => exact ⟨e, rfl, Parse_wraps s e he⟩
  · intro hm
    rw [Parse_no_underscore s hs hm]
    simp
  · rintro name t rfl ht h
    exact Parse_err_of_split name t ht h
  · rintro name t b rfl ht hv hb he
    have hte : t ≠ [] := by
      rintro rfl
      have : b = Base.zero := by
        have h2 : ParseBase [] = (Base.zero, none) := rfl
        rw [h2] at hb
        exact (Prod.mk.inj hb).1.symm
      rw [this] at he
      exact absurd Base.zero_Empty (by simp [he])
    rw [Parse_ok_of_split name t ht hv hte (by rw [hb])]
    simp [hb, he]

theorem Parse_succeeds_iff_witness :
    ([97, 95] ++ List.replicate 26 48 : Str) ≠ [] ∧
    ((Parse ([97, 95] ++ List.replicate 26 48)).2 = none ↔
      ∃ name t, ([97, 95] ++ List.replicate 26 48 : Str) = name ++ underscore :: t ∧
        underscore ∉ t ∧ validateName name = true ∧ t.length = 26 ∧ (ParseBase t).2 = none) :=
  ⟨by decide, (Parse_succeeds_iff ([97, 95] ++ List.replicate 26 48) (by decide)).1⟩

/-! ### Order -/

theorem bigEndian_lt (B : Nat) (ds : List Nat) (h : ∀ d ∈ ds, d < B) :
    bigEndian B ds < B ^ ds.length := by
  induction ds with
  | nil => simp [bigEndian]
  | cons d ds ih =>
    have hd : d + 1 ≤ B := h d (List.mem_cons_self _ _)
    have hr := ih (fun x hx => h x (List.mem_cons_of_mem _ hx))
    have hm : (d + 1) * B ^ ds.length ≤ B * B ^ ds.length := Nat.mul_le_mul_right _ hd
    simp only [bigEndian, List.length_cons, pow_succ]
    rw [Nat.add_mul, Nat.one_mul] at hm
    rw [Nat.mul_comm (B ^ ds.length) B]
    omega

theorem lexCmp_eq_sgnCmp (B : Nat) (ds : List Nat) :
    ∀ es : List Nat, ds.length = es.length → (∀ d ∈ ds, d < B) → (∀ e ∈ es, e < B) →
      lexCmp ds es = sgnCmp (bigEndian B ds) (bigEndian B es) := by
  induction ds with
  | nil =>
    intro es hl _ _
    cases es with
    | nil => rfl
    | cons e es => cases hl
  | cons d ds ih =>
    intro es hl hd he
    cases es with
    | nil => cases hl
    | cons e es =>
      have hl' : ds.length = es.length := by simpa using hl
      have r1 := bigEndian_lt B ds (fun x hx => hd x (List.mem_cons_of_mem _ hx))
      have r2 := bigEndian_lt B es (fun x hx => he x (List.mem_cons_of_mem _ hx))
      have ih' := ih es hl' (fun x hx => hd x (List.mem_cons_of_mem _ hx))
        (fun x hx => he x (List.mem_cons_of_mem _ hx))
      rw [← hl'] at r2
      simp only [lexCmp, bigEndian, ← hl']
      by_cases h1 : d < e
      · have hm : (d + 1) * B ^ ds.length ≤ e * B ^ ds.length := Nat.mul_le_mul_right _ h1
        rw [Nat.add_mul, Nat.one_mul] at hm
        have : d * B ^ ds.length + bigEndian B ds < e * B ^ ds.length + bigEndian B es := by
          omega
        simp [h1, sgnCmp, this]
      · by_cases h2 : e < d
        · have hm : (e + 1) * B ^ ds.length ≤ d * B ^ ds.length := Nat.mul_le_mul_right _ h2
          rw [Nat.add_mul, Nat.one_mul] at hm
          have h3 : e * B ^ ds.length + bigEndian B es < d * B ^ ds.length + bigEndian B ds := by
            omega
          have h4 : ¬ (d * B ^ ds.length + bigEndian B ds < e * B ^ ds.length + bigEndian B es) := by
            omega
          simp only [h1, h2, if_false, if_true, gt_iff_lt, sgnCmp, h3, h4]
        · have hde : d = e := by omega
          subst hde
          simp only [lt_irrefl, if_false, gt_iff_lt, ih', sgnCmp, Nat.add_lt_add_iff_left]

theorem bigEndian_append (B : Nat) (xs ys : List Nat) :
    bigEndian B (xs ++ ys) = bigEndian B xs * B ^ ys.length + bigEndian B ys := by
  induction xs with
  | nil => simp [bigEndian]
  | cons x xs ih =>
    rw [List.cons_append, bigEndian, ih, List.length_append, pow_add, bigEndian]
    ring

theorem stringCompare_eq_lexCmp (s : Str) :
    ∀ t : Str, stringCompare s t = lexCmp (s.map Fin.val) (t.map Fin.val) := by
  induction s with
  | nil =>
    intro t
    cases t <;> rfl
  | cons x xs ih =>
    intro t
    cases t with
    | nil => rfl
    | cons y ys =>
      simp only [stringCompare, List.map_cons, lexCmp, ih ys, Fin.lt_def, gt_iff_lt]

theorem encodeSym_lt : ∀ u < 32, ∀ v < 32, ((encodeSym u).val < (encodeSym v).val ↔ u < v) := by
  decide

theorem lexCmp_map_encodeSym (ds : List Nat) :
    ∀ es : List Nat, (∀ d ∈ ds, d < 32) → (∀ e ∈ es, e < 32) →
      lexCmp ((ds.map encodeSym).map Fin.val) ((es.map encodeSym).map Fin.val) = lexCmp ds es := by
  induction ds with
  | nil =>
    intro es _ _
    cases es <;> rfl
  | cons d ds ih =>
    intro es hd he
    cases es with
    | nil => rfl
    | cons e es =>
      have h1 := encodeSym_lt d (hd d (List.mem_cons_self _ _)) e (he e (List.mem_cons_self _ _))
      have h2 := encodeSym_lt e (he e (List.mem_cons_self _ _)) d (hd d (List.mem_cons_self _ _))
      simp only [List.map_cons, lexCmp, gt_iff_lt, h1, h2,
        ih es (fun x hx => hd x (List.mem_cons_of_mem _ hx))
          (fun x hx => he x (List.mem_cons_of_mem _ hx))]

theorem bigEndian_quantumVals (s0 s1 s2 s3 s4 : Nat) (h0 : s0 < 256) (h1 : s1 < 256)
    (h2 : s2 < 256) (h3 : s3 < 256) (h4 : s4 < 256) :
    bigEndian 32 (quantumVals s0 s1 s2 s3 s4) = bigEndian 256 [s0, s1, s2, s3, s4] := by
  norm_num [quantumVals, bigEndian]
  omega

theorem bigEndian_baseVals (s : Str) (h : s.length = 16) :
    bigEndian 32 (baseVals s) = 4 * bigEndian 256 (s.map Fin.val) := by
  obtain ⟨b0, b1, b2, b3, b4, b5, b6, b7, b8, b9, b10, b11, b12, b13, b14, b15, rfl⟩ :=
    length_16 s h
  have e : List.map Fin.val [b0, b1, b2, b3, b4, b5, b6, b7, b8, b9, b10, b11, b12, b13, b14, b15]
      = [b0.val, b1.val, b2.val, b3.val, b4.val] ++ ([b5.val, b6.val, b7.val, b8.val, b9.val] ++
        ([b10.val, b11.val, b12.val, b13.val, b14.val] ++ [b15.val])) := rfl
  have q1 := bigEndian_quantumVals b0.val b1.val b2.val b3.val b4.val b0.isLt b1.isLt b2.isLt
    b3.isLt b4.isLt
  have q2 := bigEndian_quantumVals b5.val b6.val b7.val b8.val b9.val b5.isLt b6.isLt b7.isLt
    b8.isLt b9.isLt
  have q3 := bigEndian_quantumVals b10.val b11.val b12.val b13.val b14.val b10.isLt b11.isLt
    b12.isLt b13.isLt b14.isLt
  have q4 : bigEndian 32 [b15.val / 8, b15.val * 4 % 32] = 4 * bigEndian 256 [b15.val] := by
    norm_num [bigEndian]
    omega
  have l : ∀ a b c d e : Nat, (quantumVals a b c d e).length = 8 := fun _ _ _ _ _ => rfl
  rw [e]
  simp only [baseVals, List.getD_cons_zero, List.getD_cons_succ, List.append_assoc]
  rw [bigEndian_append, bigEndian_append, bigEndian_append, bigEndian_append, bigEndian_append,
    bigEndian_append, q1, q2, q3, q4]
  norm_num [l, bigEndian]
  ring

theorem sgnCmp_mul (x y : Nat) : sgnCmp (4 * x) (4 * y) = sgnCmp x y := by
  unfold sgnCmp
  by_cases h1 : x < y
  · have : 4 * x < 4 * y := by omega
    simp [h1, this]
  · by_cases h2 : y < x
    · have h3 : 4 * y < 4 * x := by omega
      have h4 : ¬ (4 * x < 4 * y) := by omega
      simp [h1, h2, h3, h4]
    · have h3 : ¬ (4 * y < 4 * x) := by omega
      have h4 : ¬ (4 * x < 4 * y) := by omega
      simp [h1, h2, h3, h4]

theorem CompareBase_bytes (a b : Base) : CompareBase a b = stringCompare a.bytes b.bytes := by
  obtain ⟨sa, ha⟩ := a
  obtain ⟨sb, hb⟩ := b
  obtain ⟨a0, a1, a2, a3, a4, a5, a6, a7, a8, a9, a10, a11, a12, a13, a14, a15, rfl⟩ :=
    length_16 sa ha
  obtain ⟨b0, b1, b2, b3, b4, b5, b6, b7, b8, b9, b10, b11, b12, b13, b14, b15, rfl⟩ :=
    length_16 sb hb
  rfl

theorem stringCompare_Encode (s t : Str) (hs : s.length = 16) (ht : t.length = 16) :
    stringCompare (Encode s) (Encode t) = stringCompare s t := by
  rw [Encode_eq_baseVals s hs, Encode_eq_baseVals t ht, stringCompare_eq_lexCmp,
    lexCmp_map_encodeSym _ _ (baseVals_lt s) (baseVals_lt t),
    lexCmp_eq_sgnCmp 32 _ _ (by rw [baseVals_length, baseVals_length]) (baseVals_lt s)
      (baseVals_lt t),
    bigEndian_baseVals s hs, bigEndian_baseVals t ht, sgnCmp_mul, stringCompare_eq_lexCmp,
    lexCmp_eq_sgnCmp 256 _ _ (by simp [hs, ht])]
  · intro d hd
    obtain ⟨x, _, rfl⟩ := List.mem_map.mp hd
    exact x.isLt
  · intro d hd
    obtain ⟨x, _, rfl⟩ := List.mem_map.mp hd
    exact x.isLt

theorem stringCompare_range (s : Str) :
    ∀ t : Str, stringCompare s t = -1 ∨ stringCompare s t = 0 ∨ stringCompare s t = 1 := by
  induction s with
  | nil =>
    intro t
    cases t
    · exact Or.inr (Or.inl rfl)
    · exact Or.inl rfl
  | cons x xs ih =>
    intro t
    cases t with
    | nil => exact Or.inr (Or.inr rfl)
    | cons y ys =>
      simp only [stringCompare]
      split
      · exact Or.inl rfl
      · split
        · exact Or.inr (Or.inr rfl)
        · exact ih ys

theorem stringCompare_sign (s t : Str) : Int.sign (stringCompare s t) = stringCompare s t := by
  rcases stringCompare_range s t with e | e | e <;> rw [e] <;> rfl

/-- C3: byte order and string order agree. For every pair of Bases a and b,
CompareBase(a, b) is the sign (-1, 0 or 1) of the bytewise lexicographic
comparison of the strings a.String() and b.String(). -/
theorem CompareBase_String (a b : Base) :
    CompareBase a b = Int.sign (stringCompare a.String b.String) ∧
    CompareBase a b = stringCompare a.String b.String ∧
    (CompareBase a b = -1 ∨ CompareBase a b = 0 ∨ CompareBase a b = 1) := by
  have h : CompareBase a b = stringCompare a.String b.String := by
    rw [CompareBase_bytes]
    simp only [Base.String, Base.MarshalText]
    rw [stringCompare_Encode _ _ a.size b.size]
  refine ⟨by rw [stringCompare_sign, h], h, ?_⟩
  rw [h]
  exact stringCompare_range _ _

theorem bigEndian_putUint64 (v : Nat) (h : v < 18446744073709551616) :
    bigEndian 256 ((putUint64 v).map Fin.val) = v := by
  have e : (putUint64 v).map Fin.val =
      [v / 72057594037927936 % 256, v / 281474976710656 % 256, v / 1099511627776 % 256,
       v / 4294967296 % 256, v / 16777216 % 256, v / 65536 % 256, v / 256 % 256, v % 256] := by
    simp only [putUint64, toByte, List.map_cons, List.map_nil, Nat.shiftRight_eq_div_pow]
  rw [e]
  have b : ∀ v0 v1 v2 v3 v4 v5 v6 v7 : Nat, bigEndian 256 [v0, v1, v2, v3, v4, v5, v6, v7] =
      v0 * 72057594037927936 + v1 * 281474976710656 + v2 * 1099511627776 + v3 * 4294967296 +
        v4 * 16777216 + v5 * 65536 + v6 * 256 + v7 := by
    intro v0 v1 v2 v3 v4 v5 v6 v7
    norm_num [bigEndian]
    omega
  rw [b]
  omega

theorem stringCompare_putUint64 (u v : Nat) (hu : u < 18446744073709551616)
    (hv : v < 18446744073709551616) :
    stringCompare (putUint64 u) (putUint64 v) = sgnCmp u v := by
  have hl : ((putUint64 u).map Fin.val).length = ((putUint64 v).map Fin.val).length := by
    simp [putUint64]
  rw [stringCompare_eq_lexCmp, lexCmp_eq_sgnCmp 256 _ _ hl, bigEndian_putUint64 u hu,
    bigEndian_putUint64 v hv]
  · intro d hd
    obtain ⟨x, _, rfl⟩ := List.mem_map.mp hd
    exact x.isLt
  · intro d hd
    obtain ⟨x, _, rfl⟩ := List.mem_map.mp hd
    exact x.isLt

theorem stringCompare_append (r1 r2 : Str) (x : Str) :
    ∀ y : Str, x.length = y.length →
      stringCompare (x ++ r1) (y ++ r2) =
        if stringCompare x y = 0 then stringCompare r1 r2 else stringCompare x y := by
  induction x with
  | nil =>
    intro y hl
    cases y with
    | nil => simp [stringCompare]
    | cons y ys => cases hl
  | cons x xs ih =>
    intro y hl
    cases y with
    | nil => cases hl
    | cons y ys =>
      have hl' : xs.length = ys.length := by simpa using hl
      simp only [List.cons_append, stringCompare]
      split
      · simp
      · split
        · simp
        · exact ih ys hl'

theorem NewBaseAt_compare (ms1 ms2 : Int) (r1 r2 : Fin 8 → Byte)
    (h : toUint64 ms1 ≠ toUint64 ms2) :
    ∃ a b, NewBaseAt ms1 (some r1) = .ok a ∧ NewBaseAt ms2 (some r2) = .ok b ∧
      CompareBase a b = sgnCmp (toUint64 ms1) (toUint64 ms2) := by
  refine ⟨_, _, rfl, rfl, ?_⟩
  rw [CompareBase_bytes]
  simp only
  have hl : (putUint64 (toUint64 ms1)).length = (putUint64 (toUint64 ms2)).length := by
    simp [putUint64]
  rw [stringCompare_append _ _ _ _ hl,
    stringCompare_putUint64 _ _ (by have := toUint64_lt ms1; omega)
      (by have := toUint64_lt ms2; omega)]
  have : sgnCmp (toUint64 ms1) (toUint64 ms2) ≠ 0 := by
    unfold sgnCmp
    split
    · decide
    · split
      · decide
      · omega
  rw [if_neg this]

/-- C4, the claim as stated fails: for the millisecond times -1 and 0, with
-1 < 0, the Base generated first compares greater than the second, since
uint64(-1) is the largest 64-bit value. -/
theorem NewBaseAt_before_epoch :
    (-1 : Int) < 0 ∧
    ∃ a b, NewBaseAt (-1) (some (fun _ => 0)) = .ok a ∧ NewBaseAt 0 (some (fun _ => 0)) = .ok b ∧
      CompareBase a b = 1 ∧ CompareBase a b ≠ -1 :=
  ⟨by decide, _, _, rfl, rfl, by decide, by decide⟩

/-- C4, amended: for millisecond times ms1 < ms2 in the signed 64-bit range and
any random bytes read for either, CompareBase(NewBaseAt(ms1), NewBaseAt(ms2))
is -1 when both times are at or after the Unix epoch or both are before it
(and it is 1 when ms1 is before the epoch and ms2 is not). -/
theorem NewBaseAt_order (ms1 ms2 : Int) (hlt : ms1 < ms2) (hlo : -2 ^ 63 ≤ ms1)
    (hhi : ms2 < 2 ^ 63) (r1 r2 : Fin 8 → Byte) :
    ∃ a b, NewBaseAt ms1 (some r1) = .ok a ∧ NewBaseAt ms2 (some r2) = .ok b ∧
      ((0 ≤ ms1 ∨ ms2 < 0) → CompareBase a b = -1) ∧
      ((ms1 < 0 ∧ 0 ≤ ms2) → CompareBase a b = 1) := by
  have hne : toUint64 ms1 ≠ toUint64 ms2 := by
    unfold toUint64
    omega
  obtain ⟨a, b, ha, hb, hc⟩ := NewBaseAt_compare ms1 ms2 r1 r2 hne
  refine ⟨a, b, ha, hb, ?_, ?_⟩
  · intro hs
    rw [hc]
    have : toUint64 ms1 < toUint64 ms2 := by
      unfold toUint64
      omega
    simp [sgnCmp, this]
  · intro hs
    rw [hc]
    have h1 : toUint64 ms2 < toUint64 ms1 := by
      unfold toUint64
      omega
    have h2 : ¬ (toUint64 ms1 < toUint64 ms2) := by omega
    simp [sgnCmp, h1, h2]

theorem NewBaseAt_order_witness :
    (1 : Int) < 2 ∧
    ∃ a b, NewBaseAt 1 (some (fun _ => 0)) = .ok a ∧ NewBaseAt 2 (some (fun _ => 255)) = .ok b ∧
      ((0 ≤ (1 : Int) ∨ (2 : Int) < 0) → CompareBase a b = -1) ∧
      (((1 : Int) < 0 ∧ 0 ≤ (2 : Int)) → CompareBase a b = 1) :=
  ⟨by decide, NewBaseAt_order 1 2 (by decide) (by decide) (by decide) (fun _ => 0)
    (fun _ => 255)⟩

/-! ### The text forms -/

/-- C11, the code at the failing input: the 26-byte text
"000034o1ibe7u02570ak9evj" followed by two line feeds has a byte outside the
alphabet, and Base.UnmarshalText returns no error on it: Decode drops the line
feeds and decodes the 24 symbols left into fifteen bytes. -/
theorem UnmarshalText_line_feed :
    ([48, 48, 48, 48, 51, 52, 111, 49, 105, 98, 101, 55, 117, 48, 50, 53, 55, 48, 97, 107, 57,
        101, 118, 106, 10, 10] : Str).length = 26 ∧
    (10 : Byte) ∉ encStr ∧
    Base.zero.UnmarshalText
        [48, 48, 48, 48, 51, 52, 111, 49, 105, 98, 101, 55, 117, 48, 50, 53, 55, 48, 97, 107, 57,
          101, 118, 106, 10, 10] =
      (⟨[0, 0, 1, 147, 1, 146, 220, 127, 0, 69, 56, 21, 68, 187, 243, 0], by decide⟩, none) := by
  decide

theorem encodeSym_alphabet :
    ∀ v < 32, encodeSym v ∈ encStr ∧ encodeSym v ≠ 61 ∧ encodeSym v ≠ underscore := by decide

/-- C12: for every Base b, b.String() has exactly 26 bytes, each of them a
symbol of the alphabet "0123456789abcdefghijklmnopqrstuv" and so neither the
padding character '=' nor an underscore; the bytes
00 00 01 93 01 92 dc 7f 00 45 38 15 44 bb f3 4f encode to
"000034o1ibe7u02570ak9evj9s". -/
theorem String_alphabet (b : Base) :
    b.String.length = 26 ∧
    (∀ c ∈ b.String, c ∈ encStr ∧ c ≠ 61 ∧ c ≠ underscore) ∧
    (Base.mk [0, 0, 1, 147, 1, 146, 220, 127, 0, 69, 56, 21, 68, 187, 243, 79]
        (by decide)).String =
      [48, 48, 48, 48, 51, 52, 111, 49, 105, 98, 101, 55, 117, 48, 50, 53, 55, 48, 97, 107, 57,
        101, 118, 106, 57, 115] := by
  refine ⟨Encode_length b.bytes b.size, ?_, by decide⟩
  intro c hc
  simp only [Base.String, Base.MarshalText] at hc
  rw [Encode_eq_baseVals b.bytes b.size] at hc
  obtain ⟨v, hv, rfl⟩ := List.mem_map.mp hc
  exact encodeSym_alphabet v (baseVals_lt b.bytes v hv)

/-- C13: for every NID id, id.String() is the empty string when id.name is
empty or id.base is all zero, and otherwise id.name, an underscore and
id.base.String(); Naming "book" applied to the base
00 00 01 93 01 92 dc 7f 00 45 38 15 44 bb f3 4f gives the NID whose text is
"book_000034o1ibe7u02570ak9evj9s". -/
theorem NID_String (id : NID) :
    id.String =
      (if id.name = [] ∨ id.base.Empty = true then []
       else id.name ++ underscore :: id.base.String) ∧
    (∃ r, (Naming.mk [98, 111, 111, 107]).Apply
        (Base.mk [0, 0, 1, 147, 1, 146, 220, 127, 0, 69, 56, 21, 68, 187, 243, 79]
          (by decide)) = .ok r ∧
      r.String =
        [98, 111, 111, 107, 95, 48, 48, 48, 48, 51, 52, 111, 49, 105, 98, 101, 55, 117, 48, 50,
          53, 55, 48, 97, 107, 57, 101, 118, 106, 57, 115]) := by
  refine ⟨?_, ⟨_, rfl, by decide⟩⟩
  unfold NID.String NID.MarshalText
  by_cases h1 : id.name = []
  · simp [h1]
  · by_cases h2 : id.base.Empty = true
    · simp [h2]
    · have h3 : ¬ (id.name.length = 0) := fun e => h1 (List.length_eq_zero.mp e)
      simp [h1, h2, h3]

/-! ### Comparison -/

theorem stringCompare_eq_sgnCmp (s t : Str) (h : s.length = t.length) :
    stringCompare s t = sgnCmp (bigEndian 256 (s.map Fin.val)) (bigEndian 256 (t.map Fin.val)) := by
  rw [stringCompare_eq_lexCmp, lexCmp_eq_sgnCmp 256 _ _ (by simp [h])]
  · intro d hd
    obtain ⟨x, _, rfl⟩ := List.mem_map.mp hd
    exact x.isLt
  · intro d hd
    obtain ⟨x, _, rfl⟩ := List.mem_map.mp hd
    exact x.isLt

theorem sgnCmp_eq_zero (x y : Nat) : sgnCmp x y = 0 ↔ x = y := by
  unfold sgnCmp
  split
  · simp only [Int.reduceNeg, neg_eq_zero, one_ne_zero, false_iff]
    omega
  · split
    · simp only [one_ne_zero, false_iff]
      omega
    · simp only [true_iff]
      omega

theorem sgnCmp_pair (ta tb ra rb : Nat) :
    (if sgnCmp ta tb = 0 then sgnCmp ra rb else sgnCmp ta tb) =
      if ta < tb then -1 else if ta > tb then 1
      else if ra < rb then -1 else if ra > rb then 1 else 0 := by
  rcases Nat.lt_trichotomy ta tb with h | h | h
  · have e : sgnCmp ta tb = -1 := by simp [sgnCmp, h]
    rw [e, if_pos h]
    rfl
  · subst h
    have e : sgnCmp ta ta = 0 := (sgnCmp_eq_zero ta ta).mpr rfl
    rw [e, if_pos rfl, if_neg (lt_irrefl ta), if_neg (lt_irrefl ta)]
    rfl
  · have h' : ¬ (ta < tb) := by omega
    have e : sgnCmp ta tb = 1 := by simp [sgnCmp, h, h']
    rw [e, if_neg h', if_pos h]
    rfl

/-- C14: for every pair of Bases a and b, CompareBase(a, b) is -1, 0 or 1 as
the 128-bit unsigned integer read big-endian from the sixteen bytes of a is
less than, equal to or greater than that of b; it is also the lexicographic
comparison of the pairs made of the first eight bytes and the last eight
bytes, each read as a big-endian unsigned 64-bit integer. -/
theorem CompareBase_uint128 (a b : Base) :
    CompareBase a b =
      (if a.uint128 < b.uint128 then -1 else if a.uint128 > b.uint128 then 1 else 0) ∧
    CompareBase a b =
      (if a.timeBits < b.timeBits then -1 else if a.timeBits > b.timeBits then 1
       else if a.randBits < b.randBits then -1 else if a.randBits > b.randBits then 1 else 0) ∧
    a.uint128 < 2 ^ 128 ∧ a.timeBits < 2 ^ 64 ∧ a.randBits < 2 ^ 64 ∧
    a.uint128 = a.timeBits * 2 ^ 64 + a.randBits := by
  have hbyte : ∀ s : Str, ∀ d ∈ s.map Fin.val, d < 256 := by
    intro s d hd
    obtain ⟨x, _, rfl⟩ := List.mem_map.mp hd
    exact x.isLt
  have hta : (a.bytes.take timeLen).length = 8 := by simp [a.size, baseLen, timeLen, randLen]
  have htb : (b.bytes.take timeLen).length = 8 := by simp [b.size, baseLen, timeLen, randLen]
  have hra : (a.bytes.drop timeLen).length = 8 := by simp [a.size, baseLen, timeLen, randLen]
  have hrb : (b.bytes.drop timeLen).length = 8 := by simp [b.size, baseLen, timeLen, randLen]
  refine ⟨?_, ?_, ?_, ?_, ?_, ?_⟩
  · rw [CompareBase_bytes, stringCompare_eq_sgnCmp _ _ (by rw [a.size, b.size])]
    rfl
  · rw [CompareBase_bytes]
    conv_lhs => rw [← List.take_append_drop timeLen a.bytes, ← List.take_append_drop timeLen b.bytes]
    rw [stringCompare_append _ _ _ _ (by rw [hta, htb]),
      stringCompare_eq_sgnCmp _ _ (by rw [hta, htb]),
      stringCompare_eq_sgnCmp _ _ (by rw [hra, hrb])]
    exact sgnCmp_pair _ _ _ _
  · have := bigEndian_lt 256 _ (hbyte a.bytes)
    rw [List.length_map, a.size] at this
    exact this
  · have := bigEndian_lt 256 _ (hbyte (a.bytes.take timeLen))
    rw [List.length_map, hta] at this
    exact this
  · have := bigEndian_lt 256 _ (hbyte (a.bytes.drop timeLen))
    rw [List.length_map, hra] at this
    exact this
  · unfold Base.uint128 Base.timeBits Base.randBits
    conv_lhs => rw [← List.take_append_drop timeLen a.bytes]
    rw [List.map_append, bigEndian_append, List.length_map, hra]
    norm_num

theorem lexCmp_eq_zero (ds : List Nat) : ∀ es : List Nat, lexCmp ds es = 0 ↔ ds = es := by
  induction ds with
  | nil =>
    intro es
    cases es <;> simp [lexCmp]
  | cons d ds ih =>
    intro es
    cases es with
    | nil => simp [lexCmp]
    | cons e es =>
      simp only [lexCmp, List.cons.injEq]
      split
      · simp only [Int.reduceNeg, neg_eq_zero, one_ne_zero, false_iff, not_and]
        omega
      · split
        · simp only [one_ne_zero, false_iff, not_and]
          omega
        · rw [ih es]
          have : d = e := by omega
          simp [this]

theorem lexCmp_swap (ds : List Nat) : ∀ es : List Nat, lexCmp es ds = - lexCmp ds es := by
  induction ds with
  | nil =>
    intro es
    cases es <;> rfl
  | cons d ds ih =>
    intro es
    cases es with
    | nil => rfl
    | cons e es =>
      simp only [lexCmp]
      rw [ih es]
      split_ifs <;> omega

theorem lexCmp_range (ds : List Nat) :
    ∀ es : List Nat, lexCmp ds es = -1 ∨ lexCmp ds es = 0 ∨ lexCmp ds es = 1 := by
  induction ds with
  | nil =>
    intro es
    cases es <;> simp [lexCmp]
  | cons d ds ih =>
    intro es
    cases es with
    | nil => simp [lexCmp]
    | cons e es =>
      simp only [lexCmp]
      split
      · simp
      · split
        · simp
        · exact ih es

theorem lexCmp_trans (ds : List Nat) :
    ∀ es fs : List Nat, lexCmp ds es ≤ 0 → lexCmp es fs ≤ 0 → lexCmp ds fs ≤ 0 := by
  induction ds with
  | nil =>
    intro es fs _ _
    cases fs <;> simp [lexCmp]
  | cons d ds ih =>
    intro es fs h1 h2
    cases es with
    | nil => simp [lexCmp] at h1
    | cons e es =>
      cases fs with
      | nil => simp [lexCmp] at h2
      | cons f fs =>
        simp only [lexCmp] at h1 h2 ⊢
        by_cases hde : d < e
        · have hef : ¬ (e > f) := by
            intro hc
            have : ¬ (e < f) := by omega
            simp [this, hc] at h2
          have hdf : d < f := by omega
          simp [hdf]
        · have hde' : ¬ (d > e) := by
            intro hc
            simp [hde, hc] at h1
          have e1 : d = e := by omega
          subst e1
          simp only [lt_irrefl, if_false, gt_iff_lt] at h1
          by_cases hef : d < f
          · simp [hef]
          · have hef' : ¬ (d > f) := by
              intro hc
              simp [hef, hc] at h2
            simp only [hef, hef', if_false] at h2 ⊢
            exact ih es fs h1 h2

theorem map_val_injective (s t : Str) (h : s.map Fin.val = t.map Fin.val) : s = t :=
  List.map_injective_iff.mpr Fin.val_injective h

theorem stringCompare_eq_zero (s t : Str) : stringCompare s t = 0 ↔ s = t := by
  rw [stringCompare_eq_lexCmp, lexCmp_eq_zero]
  constructor
  · exact map_val_injective s t
  · intro h
    rw [h]

theorem stringCompare_swap (s t : Str) : stringCompare t s = - stringCompare s t := by
  rw [stringCompare_eq_lexCmp, stringCompare_eq_lexCmp, lexCmp_swap]

theorem stringCompare_trans (s t u : Str) (h1 : stringCompare s t ≤ 0)
    (h2 : stringCompare t u ≤ 0) : stringCompare s u ≤ 0 := by
  rw [stringCompare_eq_lexCmp] at h1 h2 ⊢
  exact lexCmp_trans _ _ _ h1 h2

theorem Compare_eq (a b : NID) :
    Compare a b =
      if stringCompare a.name b.name = 0 then CompareBase a.base b.base
      else stringCompare a.name b.name := by
  unfold Compare
  rcases stringCompare_range a.name b.name with e | e | e <;> rw [e] <;> simp

/-- C15: Compare orders by name first. For every pair of NIDs a and b, when
the names differ Compare(a, b) is the sign of the bytewise comparison of the
names, whatever the bases are, and when the names are equal it is
CompareBase(a.base, b.base). -/
theorem Compare_name_first (a b : NID) :
    Compare a b =
      (if a.name = b.name then CompareBase a.base b.base
       else Int.sign (stringCompare a.name b.name)) ∧
    (∀ x y : Base, a.name ≠ b.name →
      Compare ⟨a.name, x⟩ ⟨b.name, y⟩ = Int.sign (stringCompare a.name b.name)) := by
  have h : ∀ a b : NID, Compare a b =
      (if a.name = b.name then CompareBase a.base b.base
       else Int.sign (stringCompare a.name b.name)) := by
    intro a b
    rw [Compare_eq, stringCompare_sign]
    by_cases e : a.name = b.name
    · rw [if_pos e, if_pos ((stringCompare_eq_zero _ _).mpr e)]
    · rw [if_neg e, if_neg (fun c => e ((stringCompare_eq_zero _ _).mp c))]
  refine ⟨h a b, ?_⟩
  intro x y hne
  rw [h]
  exact if_neg hne

theorem Compare_name_first_witness :
    (NID.mk [97] Base.zero).name ≠ (NID.mk [98] Base.zero).name ∧
    Compare ⟨[97], ⟨List.replicate 16 255, by decide⟩⟩ ⟨[98], Base.zero⟩ =
      Int.sign (stringCompare [97] [98]) :=
  ⟨by decide, (Compare_name_first (NID.mk [97] Base.zero) (NID.mk [98] Base.zero)).2
    ⟨List.replicate 16 255, by decide⟩ Base.zero (by decide)⟩

theorem CompareBase_eq_zero (x y : Base) : CompareBase x y = 0 ↔ x = y := by
  rw [CompareBase_bytes, stringCompare_eq_zero]
  constructor
  · exact Base.ext_bytes x y
  · intro h
    rw [h]

theorem CompareBase_swap (x y : Base) : CompareBase y x = - CompareBase x y := by
  rw [CompareBase_bytes, CompareBase_bytes, stringCompare_swap]

theorem CompareBase_range (x y : Base) :
    CompareBase x y = -1 ∨ CompareBase x y = 0 ∨ CompareBase x y = 1 := by
  rw [CompareBase_bytes]
  exact stringCompare_range _ _

theorem CompareBase_trans (x y z : Base) (h1 : CompareBase x y ≤ 0) (h2 : CompareBase y z ≤ 0) :
    CompareBase x z ≤ 0 := by
  rw [CompareBase_bytes] at h1 h2 ⊢
  exact stringCompare_trans _ _ _ h1 h2

theorem Compare_range (a b : NID) : Compare a b = -1 ∨ Compare a b = 0 ∨ Compare a b = 1 := by
  rw [Compare_eq]
  split
  · exact CompareBase_range _ _
  · exact stringCompare_range _ _

theorem Compare_eq_zero (a b : NID) : Compare a b = 0 ↔ a = b := by
  rw [Compare_eq]
  constructor
  · intro h
    split at h
    · rename_i e
      have hn := (stringCompare_eq_zero _ _).mp e
      have hb := (CompareBase_eq_zero _ _).mp h
      cases a
      cases b
      simp only at hn hb
      rw [hn, hb]
    · rename_i e
      exact absurd h e
  · rintro rfl
    rw [if_pos ((stringCompare_eq_zero _ _).mpr rfl)]
    exact (CompareBase_eq_zero _ _).mpr rfl

theorem Compare_swap (a b : NID) : Compare b a = - Compare a b := by
  rw [Compare_eq, Compare_eq, stringCompare_swap a.name b.name, CompareBase_swap a.base b.base]
  by_cases e : stringCompare a.name b.name = 0
  · simp [e]
  · simp [e]

theorem Compare_trans (a b c : NID) (h1 : Compare a b ≤ 0) (h2 : Compare b c ≤ 0) :
    Compare a c ≤ 0 := by
  rw [Compare_eq] at h1 h2 ⊢
  have r1 := stringCompare_range a.name b.name
  have r2 := stringCompare_range b.name c.name
  have n1 : stringCompare a.name b.name ≤ 0 := by
    split at h1
    · omega
    · exact h1
  have n2 : stringCompare b.name c.name ≤ 0 := by
    split at h2
    · omega
    · exact h2
  have n3 := stringCompare_trans _ _ _ n1 n2
  split
  · rename_i e
    have hac := (stringCompare_eq_zero _ _).mp e
    have n4 : stringCompare b.name a.name ≤ 0 := by
      rw [hac]
      exact n2
    rw [stringCompare_swap a.name b.name] at n4
    have e1 : stringCompare a.name b.name = 0 := by omega
    have hab := (stringCompare_eq_zero _ _).mp e1
    have e2 : stringCompare b.name c.name = 0 := by
      rw [← hab, hac]
      exact (stringCompare_eq_zero _ _).mpr rfl
    rw [if_pos e1] at h1
    rw [if_pos e2] at h2
    exact CompareBase_trans _ _ _ h1 h2
  · exact n3

/-- C16: Compare is a total order on NIDs and CompareBase on Bases. For all
a, b, c the result is -1, 0 or 1; it is 0 iff the two values are equal (in
name and in base); exchanging the arguments negates it; and a result at most 0
for (a, b) and for (b, c) gives a result at most 0 for (a, c). -/
theorem Compare_total_order (a b c : NID) (x y z : Base) :
    (Compare a b = -1 ∨ Compare a b = 0 ∨ Compare a b = 1) ∧
    (Compare a b = 0 ↔ (a.name = b.name ∧ a.base = b.base)) ∧
    (Compare a b = 0 ↔ a = b) ∧
    Compare a b = - Compare b a ∧
    (Compare a b ≤ 0 → Compare b c ≤ 0 → Compare a c ≤ 0) ∧
    (CompareBase x y = -1 ∨ CompareBase x y = 0 ∨ CompareBase x y = 1) ∧
    (CompareBase x y = 0 ↔ x = y) ∧
    CompareBase x y = - CompareBase y x ∧
    (CompareBase x y ≤ 0 → CompareBase y z ≤ 0 → CompareBase x z ≤ 0) := by
  refine ⟨Compare_range a b, ?_, Compare_eq_zero a b, Compare_swap b a, Compare_trans a b c,
    CompareBase_range x y, CompareBase_eq_zero x y, CompareBase_swap y x,
    CompareBase_trans x y z⟩
  rw [Compare_eq_zero]
  constructor
  · rintro rfl
    exact ⟨rfl, rfl⟩
  · rintro ⟨hn, hb⟩
    cases a
    cases b
    simp only at hn hb
    rw [hn, hb]

theorem Compare_total_order_witness :
    Compare ⟨[97], Base.zero⟩ ⟨[97, 98], Base.zero⟩ ≤ 0 ∧
    Compare ⟨[97, 98], Base.zero⟩ ⟨[98], Base.zero⟩ ≤ 0 ∧
    Compare ⟨[97], Base.zero⟩ ⟨[98], Base.zero⟩ ≤ 0 ∧
    CompareBase Base.zero ⟨List.replicate 16 1, by decide⟩ ≤ 0 ∧
    CompareBase ⟨List.replicate 16 1, by decide⟩ ⟨List.replicate 16 2, by decide⟩ ≤ 0 ∧
    CompareBase Base.zero ⟨List.replicate 16 2, by decide⟩ ≤ 0 :=
  ⟨by decide, by decide,
    (Compare_total_order ⟨[97], Base.zero⟩ ⟨[97, 98], Base.zero⟩ ⟨[98], Base.zero⟩ Base.zero
      ⟨List.replicate 16 1, by decide⟩ ⟨List.replicate 16 2, by decide⟩).2.2.2.2.1
      (by decide) (by decide),
    by decide, by decide,
    (Compare_total_order ⟨[97], Base.zero⟩ ⟨[97, 98], Base.zero⟩ ⟨[98], Base.zero⟩ Base.zero
      ⟨List.replicate 16 1, by decide⟩ ⟨List.replicate 16 2, by decide⟩).2.2.2.2.2.2.2.2
      (by decide) (by decide)⟩


/-! ### Sorting -/

theorem strictWeak_of_order {α : Type} (cmp : α → α → Int)
    (h0 : ∀ a b, cmp a b = 0 ↔ a = b) (hs : ∀ a b, cmp b a = - cmp a b)
    (ht : ∀ a b c, cmp a b ≤ 0 → cmp b c ≤ 0 → cmp a c ≤ 0) : StrictWeakOrdering cmp := by
  refine ⟨?_, ?_, ?_, ?_⟩
  · intro a
    rw [(h0 a a).mpr rfl]
    decide
  · intro a b c h1 h2
    have h3 := ht a b c (le_of_lt h1) (le_of_lt h2)
    rcases lt_or_eq_of_le h3 with h | h
    · exact h
    · have e := (h0 a c).mp h
      subst e
      have := hs a b
      omega
  · intro a b c h1 h2 h3 h4
    have e1 : cmp a b = 0 := by
      have := hs a b
      omega
    have e2 : cmp b c = 0 := by
      have := hs b c
      omega
    have e3 := (h0 a b).mp e1
    have e4 := (h0 b c).mp e2
    subst e3
    subst e4
    rw [(h0 a a).mpr rfl]
    decide
  · intro a b
    have := hs a b
    omega

theorem Compare_strictWeak : StrictWeakOrdering Compare :=
  strictWeak_of_order Compare Compare_eq_zero Compare_swap Compare_trans

theorem CompareBase_strictWeak : StrictWeakOrdering CompareBase :=
  strictWeak_of_order CompareBase CompareBase_eq_zero CompareBase_swap CompareBase_trans

theorem pairwise_of_IsSortedFunc {α : Type} (cmp : α → α → Int)
    (hs : ∀ a b, cmp b a = - cmp a b)
    (ht : ∀ a b c, cmp a b ≤ 0 → cmp b c ≤ 0 → cmp a c ≤ 0) :
    ∀ l : List α, IsSortedFunc cmp l = true → List.Pairwise (fun a b => cmp a b ≤ 0) l := by
  intro l
  induction l with
  | nil => intro _; exact List.Pairwise.nil
  | cons a l ih =>
    intro h
    cases l with
    | nil => exact List.pairwise_singleton _ _
    | cons b rest =>
      simp only [IsSortedFunc] at h
      split at h
      · cases h
      · rename_i hba
        have hab : cmp a b ≤ 0 := by
          have := hs a b
          omega
        have hp := ih h
        refine List.Pairwise.cons ?_ hp
        intro x hx
        rcases List.mem_cons.mp hx with e | e
        · rw [e]
          exact hab
        · exact ht a b x hab ((List.pairwise_cons.mp hp).1 x e)

theorem SortNID_pairwise (sortFunc : {α : Type} → (α → α → Int) → List α → List α)
    (h : SortFuncContract sortFunc) (ids : List NID) :
    List.Pairwise (fun a b => Compare a b ≤ 0) (SortNID sortFunc ids) :=
  pairwise_of_IsSortedFunc Compare Compare_swap Compare_trans _
    (h NID Compare ids Compare_strictWeak).2

theorem SortBase_pairwise (sortFunc : {α : Type} → (α → α → Int) → List α → List α)
    (h : SortFuncContract sortFunc) (ids : List Base) :
    List.Pairwise (fun a b => CompareBase a b ≤ 0) (SortBase sortFunc ids) :=
  pairwise_of_IsSortedFunc CompareBase CompareBase_swap CompareBase_trans _
    (h Base CompareBase ids CompareBase_strictWeak).2

theorem IsSortedFunc_of_sorted {α : Type} (cmp : α → α → Int)
    (h4 : ∀ a b, 0 < cmp a b ↔ cmp b a < 0) :
    ∀ l : List α, List.Sorted (fun a b => cmp a b ≤ 0) l → IsSortedFunc cmp l = true := by
  intro l
  induction l with
  | nil => intro _; rfl
  | cons a l ih =>
    intro hsorted
    cases l with
    | nil => rfl
    | cons b rest =>
      have hab : cmp a b ≤ 0 := (List.pairwise_cons.mp hsorted).1 b (List.mem_cons_self _ _)
      have nba : ¬ cmp b a < 0 := fun hh => by
        have := (h4 a b).mpr hh
        omega
      simp only [IsSortedFunc, nba, if_false]
      exact ih (List.pairwise_cons.mp hsorted).2

theorem insertionSortFunc_contract : SortFuncContract insertionSortFunc := by
  intro α cmp x hc
  obtain ⟨_, h2, h3, h4⟩ := hc
  have htot : ∀ a b : α, cmp a b ≤ 0 ∨ cmp b a ≤ 0 := by
    intro a b
    by_cases h : cmp a b ≤ 0
    · exact Or.inl h
    · exact Or.inr (le_of_lt ((h4 a b).mp (by omega)))
  have htr : ∀ a b c : α, cmp a b ≤ 0 → cmp b c ≤ 0 → cmp a c ≤ 0 := by
    intro a b c hab hbc
    by_contra hac
    have hca : cmp c a < 0 := (h4 a c).mp (by omega)
    have nba : ¬ cmp b a < 0 := fun hh => by
      have := (h4 a b).mpr hh
      omega
    have ncb : ¬ cmp c b < 0 := fun hh => by
      have := (h4 b c).mpr hh
      omega
    by_cases l1 : cmp a b < 0
    · exact ncb (h2 c a b hca l1)
    · by_cases l2 : cmp b c < 0
      · exact nba (h2 b c a l2 hca)
      · exact (h3 a b c l1 nba l2 ncb).2 hca
  haveI : IsTotal α (fun a b => cmp a b ≤ 0) := ⟨htot⟩
  haveI : IsTrans α (fun a b => cmp a b ≤ 0) := ⟨htr⟩
  refine ⟨List.perm_insertionSort _ x, ?_⟩
  exact IsSortedFunc_of_sorted cmp h4 _
    (List.sorted_insertionSort (fun a b => cmp a b ≤ 0) x)

/-- C17: Sort and SortBase sort. With slices.SortFunc meeting its contract, for
every list the list after Sort (after SortBase) is a permutation of the list
before, with every element as many times as before, and is non-decreasing:
Compare (CompareBase) of the elements at positions i < j is at most 0. -/
theorem Sort_sorts (sortFunc : {α : Type} → (α → α → Int) → List α → List α)
    (h : SortFuncContract sortFunc) (ids : List NID) (bases : List Base) :
    (SortNID sortFunc ids).Perm ids ∧
    (∀ x, (SortNID sortFunc ids).count x = ids.count x) ∧
    (∀ i j : Fin (SortNID sortFunc ids).length, i < j →
      Compare ((SortNID sortFunc ids).get i) ((SortNID sortFunc ids).get j) ≤ 0) ∧
    (SortBase sortFunc bases).Perm bases ∧
    (∀ x, (SortBase sortFunc bases).count x = bases.count x) ∧
    (∀ i j : Fin (SortBase sortFunc bases).length, i < j →
      CompareBase ((SortBase sortFunc bases).get i) ((SortBase sortFunc bases).get j) ≤ 0) := by
  have p1 : (SortNID sortFunc ids).Perm ids := (h NID Compare ids Compare_strictWeak).1
  have p2 : (SortBase sortFunc bases).Perm bases :=
    (h Base CompareBase bases CompareBase_strictWeak).1
  refine ⟨p1, fun x => p1.count_eq x, ?_, p2, fun x => p2.count_eq x, ?_⟩
  · intro i j hij
    exact List.pairwise_iff_get.mp (SortNID_pairwise sortFunc h ids) i j hij
  · intro i j hij
    exact List.pairwise_iff_get.mp (SortBase_pairwise sortFunc h bases) i j hij

theorem Sort_sorts_witness :
    (SortNID insertionSortFunc [⟨[98], Base.zero⟩, ⟨[97], Base.zero⟩]).Perm
      [⟨[98], Base.zero⟩, ⟨[97], Base.zero⟩] ∧
    (SortBase insertionSortFunc [⟨List.replicate 16 1, by decide⟩, Base.zero]).Perm
      [⟨List.replicate 16 1, by decide⟩, Base.zero] :=
  ⟨(Sort_sorts insertionSortFunc insertionSortFunc_contract
      [⟨[98], Base.zero⟩, ⟨[97], Base.zero⟩] [⟨List.replicate 16 1, by decide⟩, Base.zero]).1,
   (Sort_sorts insertionSortFunc insertionSortFunc_contract
      [⟨[98], Base.zero⟩, ⟨[97], Base.zero⟩]
      [⟨List.replicate 16 1, by decide⟩, Base.zero]).2.2.2.1⟩

theorem stringCompare_prefix (s t : Str) (ht : t ≠ []) : stringCompare s (s ++ t) = -1 := by
  induction s with
  | nil =>
    cases t with
    | nil => exact absurd rfl ht
    | cons y ys => rfl
  | cons x xs ih =>
    simp only [List.cons_append, stringCompare, lt_irrefl, if_false, gt_iff_lt]
    exact ih

theorem stringCompare_nil (t : Str) : stringCompare [] t = if t = [] then 0 else -1 := by
  cases t <;> rfl

theorem CompareBase_zero (x : Base) : CompareBase Base.zero x ≤ 0 := by
  rw [CompareBase_bytes, stringCompare_eq_sgnCmp _ _ (by rw [Base.zero.size, x.size])]
  have : bigEndian 256 (Base.zero.bytes.map Fin.val) = 0 := by
    norm_num [Base.zero, bigEndian]
  rw [this]
  unfold sgnCmp
  split_ifs <;> omega

theorem Compare_zero (x : NID) : Compare NID.zero x ≤ 0 := by
  rw [Compare_eq]
  have h : NID.zero.name = [] := rfl
  rw [h, stringCompare_nil]
  by_cases e : x.name = []
  · simp only [e, if_true]
    exact CompareBase_zero x.base
  · simp [e]

/-- C18: empty identifiers sort first, and a name sorts before every name it
is a proper prefix of. For every NID x, Compare(NID{}, x) is at most 0, and it
is -1 when x is not NID{}; so, with slices.SortFunc meeting its contract, after
Sort every NID{} stands before every NID that is not NID{}. For NIDs a and b
with a.name a proper prefix of b.name, Compare(a, b) = -1 whatever the bases
are, as for "example" and "example_1". -/
theorem Compare_empty_first (x : NID) :
    Compare NID.zero x ≤ 0 ∧
    (x ≠ NID.zero → Compare NID.zero x = -1) ∧
    (∀ (sortFunc : {α : Type} → (α → α → Int) → List α → List α), SortFuncContract sortFunc →
      ∀ (ids : List NID) (i j : Fin (SortNID sortFunc ids).length),
        (SortNID sortFunc ids).get i = NID.zero → (SortNID sortFunc ids).get j ≠ NID.zero →
        i < j) ∧
    (∀ (a b : NID) (t : Str), t ≠ [] → b.name = a.name ++ t → Compare a b = -1) ∧
    (∀ p q : Base,
      Compare ⟨[101, 120, 97, 109, 112, 108, 101], p⟩
        ⟨[101, 120, 97, 109, 112, 108, 101, 95, 49], q⟩ = -1) := by
  have hz : ∀ y : NID, y ≠ NID.zero → Compare NID.zero y = -1 := by
    intro y hy
    have h1 := Compare_zero y
    have h2 : Compare NID.zero y ≠ 0 := fun e => hy ((Compare_eq_zero _ _).mp e).symm
    rcases Compare_range NID.zero y with e | e | e
    · exact e
    · exact absurd e h2
    · omega
  have hp : ∀ (a b : NID) (t : Str), t ≠ [] → b.name = a.name ++ t → Compare a b = -1 := by
    intro a b t ht hb
    rw [Compare_eq, hb, stringCompare_prefix a.name t ht]
    rfl
  refine ⟨Compare_zero x, hz x, ?_, hp, ?_⟩
  · intro sortFunc h ids i j hi hj
    have hpw := List.pairwise_iff_get.mp (SortNID_pairwise sortFunc h ids)
    by_contra hlt
    have hne : i ≠ j := by
      intro e
      rw [e] at hi
      exact hj hi
    have hji : j < i := lt_of_le_of_ne (not_lt.mp hlt) (Ne.symm hne)
    have h1 := hpw j i hji
    rw [hi] at h1
    have h2 := hz _ hj
    have h3 := Compare_swap NID.zero ((SortNID sortFunc ids).get j)
    omega
  · intro p q
    exact hp ⟨[101, 120, 97, 109, 112, 108, 101], p⟩
      ⟨[101, 120, 97, 109, 112, 108, 101, 95, 49], q⟩ [95, 49] (by decide) rfl

theorem Compare_empty_first_witness :
    (NID.mk [97] Base.zero ≠ NID.zero) ∧ Compare NID.zero (NID.mk [97] Base.zero) = -1 ∧
    (∀ i j : Fin (SortNID insertionSortFunc [⟨[97], Base.zero⟩, NID.zero]).length,
      (SortNID insertionSortFunc [⟨[97], Base.zero⟩, NID.zero]).get i = NID.zero →
      (SortNID insertionSortFunc [⟨[97], Base.zero⟩, NID.zero]).get j ≠ NID.zero → i < j) ∧
    Compare ⟨[97], Base.zero⟩ ⟨[97, 98], Base.zero⟩ = -1 :=
  ⟨by decide, (Compare_empty_first (NID.mk [97] Base.zero)).2.1 (by decide),
    (Compare_empty_first (NID.mk [97] Base.zero)).2.2.1 insertionSortFunc
      insertionSortFunc_contract [⟨[97], Base.zero⟩, NID.zero],
    (Compare_empty_first (NID.mk [97] Base.zero)).2.2.2.1 ⟨[97], Base.zero⟩
      ⟨[97, 98], Base.zero⟩ [98] (by decide) rfl⟩

/-! ### Naming -/

/-- C19: NewNaming validates. For every string name, NewNaming(name) returns
an error wrapping ErrInvalidName, with the zero Naming, iff name fails the
name grammar; otherwise it returns no error and the Naming that holds exactly
name, which is not empty, and on that Naming Is, Apply and Update return a
value for every argument: they do not panic. -/
theorem NewNaming_validates (name : Str) :
    ((∃ e, NewNaming name = (⟨[]⟩, some e) ∧ e.wraps .ErrInvalidName = true) ↔
      validateName name = false) ∧
    ((NewNaming name).2 ≠ none ↔ validateName name = false) ∧
    (validateName name = true →
      NewNaming name = (⟨name⟩, none) ∧ name ≠ [] ∧
      ∀ n, NewNaming name = (n, none) →
        n.name = name ∧
        ∀ (id : NID) (base : Base),
          (∃ b, n.Is id = .ok b) ∧ (∃ r, n.Apply base = .ok r) ∧ (∃ r, n.Update id = .ok r)) := by
  by_cases hv : validateName name = true
  · have hnn : NewNaming name = (⟨name⟩, none) := by simp [NewNaming, hv]
    have hne := validateName_ne_nil name hv
    refine ⟨?_, ?_, ?_⟩
    · rw [hnn]
      simp [hv]
    · rw [hnn]
      simp [hv]
    · intro _
      refine ⟨hnn, hne, ?_⟩
      intro n hn
      rw [hnn] at hn
      have e : n = ⟨name⟩ := (Prod.mk.inj hn).1.symm
      subst e
      refine ⟨rfl, ?_⟩
      intro id base
      refine ⟨?_, ?_, ?_⟩
      · exact ⟨_, by simp [Naming.Is, Naming.initialized, hne]; rfl⟩
      · unfold Naming.Apply Naming.initialized
        simp only [hne, if_false]
        split
        · exact ⟨_, rfl⟩
        · exact ⟨_, rfl⟩
      · unfold Naming.Update Naming.initialized
        simp only [hne, if_false]
        split
        · exact ⟨_, rfl⟩
        · exact ⟨_, rfl⟩
  · have hv' : validateName name = false := by simpa using hv
    have hnn : NewNaming name = (⟨[]⟩, some (.namingName name)) := by simp [NewNaming, hv']
    refine ⟨?_, ?_, ?_⟩
    · rw [hnn]
      simp only [hv', iff_true]
      exact ⟨_, rfl, rfl⟩
    · rw [hnn]
      simp [hv']
    · intro h
      exact absurd h hv

theorem NewNaming_validates_witness :
    validateName [98, 111, 111, 107] = true ∧
    NewNaming [98, 111, 111, 107] = (⟨[98, 111, 111, 107]⟩, none) ∧
    ([98, 111, 111, 107] : Str) ≠ [] :=
  ⟨by decide, ((NewNaming_validates [98, 111, 111, 107]).2.2 (by decide)).1,
    ((NewNaming_validates [98, 111, 111, 107]).2.2 (by decide)).2.1⟩

/-- C20: an uninitialized Naming fails loudly. On the zero-value Naming each
of New, NewAt, Is, Apply and Update panics with the "not initialized" panic for
every argument (and every time and outcome of the random read) and returns no
NID or boolean. -/
theorem zero_Naming_panics (now ms : Int) (rnd : Option (Fin 8 → Byte)) (id : NID)
    (base : Base) :
    (Naming.mk []).New now rnd = .error .notInitialized ∧
    (Naming.mk []).NewAt ms rnd = .error .notInitialized ∧
    (Naming.mk []).Is id = .error .notInitialized ∧
    (Naming.mk []).Apply base = .error .notInitialized ∧
    (Naming.mk []).Update id = .error .notInitialized ∧
    (∀ r, (Naming.mk []).New now rnd ≠ .ok r) ∧
    (∀ r, (Naming.mk []).NewAt ms rnd ≠ .ok r) ∧
    (∀ r, (Naming.mk []).Is id ≠ .ok r) ∧
    (∀ r, (Naming.mk []).Apply base ≠ .ok r) ∧
    (∀ r, (Naming.mk []).Update id ≠ .ok r) := by
  have h1 : (Naming.mk []).New now rnd = .error .notInitialized := rfl
  have h2 : (Naming.mk []).NewAt ms rnd = .error .notInitialized := rfl
  have h3 : (Naming.mk []).Is id = .error .notInitialized := rfl
  have h4 : (Naming.mk []).Apply base = .error .notInitialized := rfl
  have h5 : (Naming.mk []).Update id = .error .notInitialized := rfl
  refine ⟨h1, h2, h3, h4, h5, ?_, ?_, ?_, ?_, ?_⟩
  · intro r e
    rw [h1] at e
    cases e
  · intro r e
    rw [h2] at e
    cases e
  · intro r e
    rw [h3] at e
    cases e
  · intro r e
    rw [h4] at e
    cases e
  · intro r e
    rw [h5] at e
    cases e

/-! ### The operations of a Naming -/

theorem Parse_text (name : Str) (b : Base) (hv : validateName name = true)
    (he : b.Empty = false) : Parse (name ++ underscore :: b.String) = (⟨name, b⟩, none) := by
  have hn : name ≠ [] := validateName_ne_nil name hv
  have hne : Encode b.bytes ≠ [] := by
    intro e
    have := Encode_length b.bytes b.size
    rw [e] at this
    cases this
  simp only [Base.String, Base.MarshalText]
  rw [Parse_cut name _ (underscore_not_mem_Encode _ b.size)]
  simp only [hn, hne, or_self, if_false, hv, Bool.true_eq_false]
  unfold ParseBase ParseBaseBytes
  rw [Base.UnmarshalText_Encode]
  simp [he]

/-- C21: Apply binds a base to the name. For every initialized Naming n and
every Base b, n.Apply(b) is NID{} when b is all zero and otherwise the NID
with the name of n and the base b; for a non-empty b, and the name of n
grammar-valid as NewNaming leaves it, it is what Parse returns, with no error,
on name + "_" + b.String(). -/
theorem Apply_binds (n : Naming) (hn : n.name ≠ []) (b : Base) :
    n.Apply b = .ok (if b.Empty = true then NID.zero else ⟨n.name, b⟩) ∧
    (b.Empty = true → n.Apply b = .ok NID.zero) ∧
    (b.Empty = false → n.Apply b = .ok ⟨n.name, b⟩) ∧
    (validateName n.name = true → b.Empty = false →
      Parse (n.name ++ underscore :: b.String) = (⟨n.name, b⟩, none) ∧
      n.Apply b = .ok (Parse (n.name ++ underscore :: b.String)).1) := by
  have h : n.Apply b = .ok (if b.Empty = true then NID.zero else ⟨n.name, b⟩) := by
    unfold Naming.Apply Naming.initialized
    simp only [hn, if_false]
    split <;> rfl
  refine ⟨h, ?_, ?_, ?_⟩
  · intro he
    rw [h, if_pos he]
  · intro he
    rw [h, if_neg (by simp [he])]
  · intro hv he
    have hp := Parse_text n.name b hv he
    refine ⟨hp, ?_⟩
    rw [h, if_neg (by simp [he]), hp]

theorem Apply_binds_witness :
    (Naming.mk [97]).name ≠ [] ∧ validateName (Naming.mk [97]).name = true ∧
    (Base.mk (List.replicate 16 1) (by decide)).Empty = false ∧
    (Naming.mk [97]).Apply ⟨List.replicate 16 1, by decide⟩ =
      .ok ⟨[97], ⟨List.replicate 16 1, by decide⟩⟩ ∧
    Parse ((Naming.mk [97]).name ++ underscore ::
        (Base.mk (List.replicate 16 1) (by decide)).String) =
      (⟨[97], ⟨List.replicate 16 1, by decide⟩⟩, none) :=
  ⟨by decide, by decide, by decide,
    (Apply_binds (Naming.mk [97]) (by decide) ⟨List.replicate 16 1, by decide⟩).2.2.1
      (by decide),
    ((Apply_binds (Naming.mk [97]) (by decide) ⟨List.replicate 16 1, by decide⟩).2.2.2
      (by decide) (by decide)).1⟩

theorem NID.Empty_iff_or (id : NID) : id.Empty = true ↔ (id.name = [] ∨ id.base.Empty = true) := by
  simp [NID.Empty, List.length_eq_zero]

/-- C22: Update renames and keeps the base. For every initialized Naming n and
every NID id, n.Update(id) is NID{} when id is empty (empty name or all-zero
base) and otherwise has the name of n and exactly the base of id, so the same
sixteen bytes, timestamp and random part; and Update is idempotent:
n.Update(n.Update(id)) = n.Update(id). -/
theorem Update_renames (n : Naming) (hn : n.name ≠ []) (id : NID) :
    n.Update id =
      .ok (if id.name = [] ∨ id.base.Empty = true then NID.zero else ⟨n.name, id.base⟩) ∧
    (∀ r, n.Update id = .ok r → ¬ (id.name = [] ∨ id.base.Empty = true) →
      r.name = n.name ∧ r.base = id.base ∧ r.base.bytes = id.base.bytes ∧
      r.base.UnixMilli = id.base.UnixMilli ∧
      r.base.bytes.drop timeLen = id.base.bytes.drop timeLen) ∧
    (∃ r, n.Update id = .ok r ∧ n.Update r = .ok r) := by
  have h : ∀ x : NID, n.Update x =
      .ok (if x.name = [] ∨ x.base.Empty = true then NID.zero else ⟨n.name, x.base⟩) := by
    intro x
    unfold Naming.Update Naming.initialized
    simp only [hn, if_false]
    by_cases e : x.Empty = true
    · rw [if_pos e, if_pos ((NID.Empty_iff_or x).mp e)]
    · rw [if_neg e, if_neg (fun c => e ((NID.Empty_iff_or x).mpr c))]
  refine ⟨h id, ?_, ?_⟩
  · intro r hr hne
    rw [h id, if_neg hne] at hr
    cases hr
    exact ⟨rfl, rfl, rfl, rfl, rfl⟩
  · by_cases e : id.name = [] ∨ id.base.Empty = true
    · refine ⟨NID.zero, ?_, ?_⟩
      · rw [h id, if_pos e]
      · rw [h NID.zero]
        simp [NID.zero]
    · refine ⟨⟨n.name, id.base⟩, ?_, ?_⟩
      · rw [h id, if_neg e]
      · rw [h, if_neg]
        simp only [not_or] at e ⊢
        exact ⟨hn, e.2⟩

theorem Update_renames_witness :
    ∃ r, (Naming.mk [97]).Update ⟨[98], ⟨List.replicate 16 1, by decide⟩⟩ = .ok r ∧
      (Naming.mk [97]).Update r = .ok r :=
  (Update_renames (Naming.mk [97]) (by decide) ⟨[98], ⟨List.replicate 16 1, by decide⟩⟩).2.2

/-- C23: Is tests the name only. For every initialized Naming n and every NID
id, n.Is(id) is true iff the name of id equals the name of n; so n.Is(NID{}) is
false, and n.Is(n.Apply(b)) is true iff b is not the all-zero Base. -/
theorem Is_name (n : Naming) (hn : n.name ≠ []) (id : NID) (b : Base) :
    (∃ v, n.Is id = .ok v ∧ (v = true ↔ id.name = n.name)) ∧
    n.Is NID.zero = .ok false ∧
    (∃ r v, n.Apply b = .ok r ∧ n.Is r = .ok v ∧ (v = true ↔ b.Empty = false)) := by
  have h : ∀ x : NID, n.Is x = .ok (decide (n.name = x.name)) := by
    intro x
    unfold Naming.Is Naming.initialized
    simp only [hn, if_false]
  refine ⟨⟨_, h id, ?_⟩, ?_, ?_⟩
  · simp only [decide_eq_true_eq]
    exact eq_comm
  · rw [h]
    have : ¬ (n.name = NID.zero.name) := hn
    simp [this]
  · have ha : n.Apply b = .ok (if b.Empty = true then NID.zero else ⟨n.name, b⟩) := by
      unfold Naming.Apply Naming.initialized
      simp only [hn, if_false]
      split <;> rfl
    refine ⟨_, _, ha, h _, ?_⟩
    by_cases e : b.Empty = true
    · have : ¬ (n.name = NID.zero.name) := hn
      simp [e, this]
    · simp [e]

theorem Is_name_witness :
    (∃ v, (Naming.mk [97]).Is ⟨[97], Base.zero⟩ = .ok v ∧
      (v = true ↔ (NID.mk [97] Base.zero).name = (Naming.mk [97]).name)) ∧
    (Naming.mk [97]).Is NID.zero = .ok false ∧
    (∃ r v, (Naming.mk [97]).Apply Base.zero = .ok r ∧ (Naming.mk [97]).Is r = .ok v ∧
      (v = true ↔ Base.zero.Empty = false)) :=
  Is_name (Naming.mk [97]) (by decide) ⟨[97], Base.zero⟩ Base.zero

/-! ### Time -/

theorem lor_shift (x y k : Nat) (hx : x < 2 ^ k) : x ||| y <<< k = y * 2 ^ k + x := by
  rw [Nat.lor_comm, Nat.shiftLeft_eq]
  exact or_eq_add_of_mod (y * 2 ^ k) x k (Nat.mul_mod_left _ _) hx

theorem Uint64_eq (b0 b1 b2 b3 b4 b5 b6 b7 : Byte) (rest : Str) :
    Uint64 (b0 :: b1 :: b2 :: b3 :: b4 :: b5 :: b6 :: b7 :: rest) =
      b0.val * 72057594037927936 + b1.val * 281474976710656 + b2.val * 1099511627776 +
        b3.val * 4294967296 + b4.val * 16777216 + b5.val * 65536 + b6.val * 256 + b7.val := by
  have h0 := b0.isLt
  have h1 := b1.isLt
  have h2 := b2.isLt
  have h3 := b3.isLt
  have h4 := b4.isLt
  have h5 := b5.isLt
  have h6 := b6.isLt
  have h7 := b7.isLt
  simp only [Uint64, List.getD_cons_zero, List.getD_cons_succ]
  rw [lor_shift _ _ 8 (by omega), lor_shift _ _ 16 (by omega), lor_shift _ _ 24 (by omega),
    lor_shift _ _ 32 (by omega), lor_shift _ _ 40 (by omega), lor_shift _ _ 48 (by omega),
    lor_shift _ _ 56 (by omega)]
  omega

theorem Uint64_putUint64 (v : Nat) (h : v < 18446744073709551616) (rest : Str) :
    Uint64 (putUint64 v ++ rest) = v := by
  simp only [putUint64, List.cons_append, List.nil_append]
  rw [Uint64_eq]
  simp only [toByte, Nat.shiftRight_eq_div_pow]
  omega

theorem toInt64_toUint64 (m : Int) (h1 : -2 ^ 63 ≤ m) (h2 : m < 2 ^ 63) :
    toInt64 (toUint64 m) = m := by
  unfold toInt64 toUint64
  split <;> omega

theorem take_putUint64 (v : Nat) (rest : Str) : (putUint64 v ++ rest).take timeLen = putUint64 v := by
  simp [putUint64, timeLen]

theorem drop_putUint64 (v : Nat) (rest : Str) : (putUint64 v ++ rest).drop timeLen = rest := by
  simp [putUint64, timeLen]

theorem UnixMilli_NewBaseAt (m : Int) (h1 : -2 ^ 63 ≤ m) (h2 : m < 2 ^ 63) (r : Fin 8 → Byte) :
    ∃ b, NewBaseAt m (some r) = .ok b ∧ b.bytes = putUint64 (toUint64 m) ++ List.ofFn r ∧
      b.UnixMilli = m := by
  refine ⟨_, rfl, rfl, ?_⟩
  unfold Base.UnixMilli
  simp only
  rw [take_putUint64]
  have e := Uint64_putUint64 (toUint64 m) (by have := toUint64_lt m; omega) []
  rw [List.append_nil] at e
  rw [e, toInt64_toUint64 m h1 h2]

/-- C24: timestamp layout and recovery. For a millisecond value m in the
signed 64-bit range (negative values included) and eight random bytes r,
NewBaseAt stores m mod 2^64 as an unsigned big-endian 64-bit integer in bytes
0..7 and r in bytes 8..15, and UnixMilli of the result is m; UnixMilli depends
on the first eight bytes only. -/
theorem NewBaseAt_layout (m : Int) (h1 : -2 ^ 63 ≤ m) (h2 : m < 2 ^ 63) (r : Fin 8 → Byte) :
    ∃ b, NewBaseAt m (some r) = .ok b ∧
      b.bytes.take 8 = putUint64 (m % 2 ^ 64).toNat ∧
      Uint64 (b.bytes.take 8) = (m % 2 ^ 64).toNat ∧
      b.timeBits = (m % 2 ^ 64).toNat ∧
      b.bytes.drop 8 = List.ofFn r ∧
      (∀ i : Fin 8, b.at (8 + i.val) = r i) ∧
      b.UnixMilli = m ∧
      (∀ b1 b2 : Base, b1.bytes.take 8 = b2.bytes.take 8 → b1.UnixMilli = b2.UnixMilli) := by
  obtain ⟨b, hb, hbytes, hm⟩ := UnixMilli_NewBaseAt m h1 h2 r
  have hlt : toUint64 m < 18446744073709551616 := by
    have := toUint64_lt m
    omega
  have ht : b.bytes.take 8 = putUint64 (toUint64 m) := by
    rw [hbytes]
    exact take_putUint64 _ _
  have hd : b.bytes.drop 8 = List.ofFn r := by
    rw [hbytes]
    exact drop_putUint64 _ _
  refine ⟨b, hb, ht, ?_, ?_, hd, ?_, hm, ?_⟩
  · rw [ht]
    have e := Uint64_putUint64 (toUint64 m) hlt []
    rw [List.append_nil] at e
    exact e
  · unfold Base.timeBits
    have : b.bytes.take timeLen = putUint64 (toUint64 m) := ht
    rw [this]
    exact bigEndian_putUint64 (toUint64 m) hlt
  · intro i
    unfold Base.at
    have hl : (putUint64 (toUint64 m)).length = 8 := by simp [putUint64]
    have hi : i.val < (List.ofFn r).length := by simp
    rw [hbytes, List.getD_eq_getElem?_getD, List.getElem?_append_right (by rw [hl]; omega), hl,
      Nat.add_sub_cancel_left, List.getElem?_eq_getElem hi, List.getElem_ofFn]
    rfl
  · intro b1 b2 e
    unfold Base.UnixMilli
    have e' : b1.bytes.take timeLen = b2.bytes.take timeLen := e
    rw [e']

theorem NewBaseAt_layout_witness :
    ∃ b, NewBaseAt (-1) (some (fun _ => 7)) = .ok b ∧
      b.bytes.take 8 = putUint64 ((-1 : Int) % 2 ^ 64).toNat ∧
      Uint64 (b.bytes.take 8) = ((-1 : Int) % 2 ^ 64).toNat ∧
      b.timeBits = ((-1 : Int) % 2 ^ 64).toNat ∧
      b.bytes.drop 8 = List.ofFn (fun _ : Fin 8 => (7 : Byte)) ∧
      (∀ i : Fin 8, b.at (8 + i.val) = (fun _ : Fin 8 => (7 : Byte)) i) ∧
      b.UnixMilli = -1 ∧
      (∀ b1 b2 : Base, b1.bytes.take 8 = b2.bytes.take 8 → b1.UnixMilli = b2.UnixMilli) :=
  NewBaseAt_layout (-1) (by decide) (by decide) (fun _ => 7)

/-- C25, the code at the failing input: for the millisecond value
9223372036855 (11 April 2262) NewBaseAt gives a Base whose UnixMilli is that
value, and Time is the instant -9223372036854551616 nanoseconds from the
epoch, not 9223372036855000000: the int64 product with time.Millisecond wraps
around. -/
theorem Time_wraps :
    ∃ b, NewBaseAt 9223372036855 (some (fun _ => 0)) = .ok b ∧
      b.UnixMilli = 9223372036855 ∧
      b.Time = -9223372036854551616 ∧
      b.Time ≠ b.UnixMilli * 1000000 := by
  obtain ⟨b, hb, _, hm⟩ := UnixMilli_NewBaseAt 9223372036855 (by decide) (by decide)
    (fun _ => 0)
  have ht : b.Time = -9223372036854551616 := by
    unfold Base.Time
    rw [hm]
    decide
  refine ⟨b, hb, hm, ht, ?_⟩
  rw [ht, hm]
  decide

/-! ### Storage values and JSON -/

theorem jsonMarshalString_ne_null (esc : Str → Str) (s : Str) :
    jsonMarshalString esc s ≠ jsonNull := by
  intro e
  have h := congrArg List.head? e
  simp [jsonMarshalString, jsonNull] at h

theorem NID.String_eq_nil (id : NID) : id.String = [] ↔ id.Empty = true := by
  unfold NID.String NID.MarshalText NID.Empty
  split
  · simp_all
  · rename_i h
    constructor
    · intro e
      have := congrArg List.length e
      simp at this
    · intro e
      exact absurd e h

/-- C26: all codecs agree on emptiness. For every NID id, id.Empty() is true
iff id.name is empty or id.base is all zero, iff id.String() is the empty
string, iff id.Value() is nil, iff id.MarshalJSON() is the token null; for
every Base b, b.Empty() is true iff all sixteen bytes are zero, iff b.Value()
is nil, iff b.MarshalJSON() is null. -/
theorem Empty_codecs (esc : Str → Str) (id : NID) (b : Base) :
    (id.Empty = true ↔ (id.name = [] ∨ id.base.Empty = true)) ∧
    (id.Empty = true ↔ id.String = []) ∧
    (id.Empty = true ↔ id.Value = .nil) ∧
    (id.Empty = true ↔ id.MarshalJSON esc = jsonNull) ∧
    (b.Empty = true ↔ (b.bytes.length = 16 ∧ ∀ x ∈ b.bytes, x = 0)) ∧
    (b.Empty = true ↔ ∀ i, i < 16 → b.at i = 0) ∧
    (b.Empty = true ↔ b.Value = .nil) ∧
    (b.Empty = true ↔ b.MarshalJSON esc = jsonNull) := by
  refine ⟨NID.Empty_iff_or id, (NID.String_eq_nil id).symm, ?_, ?_, ?_, ?_, ?_, ?_⟩
  · unfold NID.Value
    split <;> simp_all
  · unfold NID.MarshalJSON
    split
    · simp_all
    · rename_i h
      constructor
      · intro e
        exact absurd e h
      · intro e
        exact absurd e (jsonMarshalString_ne_null esc _)
  · unfold Base.Empty
    rw [allZero_forall]
    exact ⟨fun h => ⟨b.size, h⟩, fun h => h.2⟩
  · unfold Base.Empty Base.at
    rw [allZero_forall]
    constructor
    · intro h i hi
      have hlt : i < b.bytes.length := by
        rw [b.size]
        exact hi
      rw [List.getD_eq_getElem _ _ hlt]
      exact h _ (List.getElem_mem _)
    · intro h x hx
      obtain ⟨i, hi, rfl⟩ := List.getElem_of_mem hx
      have h16 : i < 16 := by
        have := b.size
        simp only [baseLen, timeLen, randLen] at this
        omega
      have := h i h16
      rw [List.getD_eq_getElem _ _ hi] at this
      exact this
  · unfold Base.Value
    split <;> simp_all
  · unfold Base.MarshalJSON
    split
    · simp_all
    · rename_i h
      constructor
      · intro e
        exact absurd e h
      · intro e
        exact absurd e (jsonMarshalString_ne_null esc _)

/-- C27: Base.Scan of a byte sequence takes raw bytes. For every byte sequence
src and receiver, Scan sets the Base to exactly src when len(src) = 16, sets
it to the all-zero Base when len(src) = 0, and for every other length returns
an error wrapping ErrFailedParse that reports the length and leaves the
receiver as it was; so for every Base b, scanning b.Value() gives b back. -/
theorem Scan_bytes (base : Base) (src : Str) (b : Base) :
    (src.length = 16 →
      ∃ r, base.Scan (.bytes src) = (r, none) ∧ r.bytes = src) ∧
    (src.length = 0 → base.Scan (.bytes src) = (Base.zero, none)) ∧
    (src.length ≠ 16 → src.length ≠ 0 →
      base.Scan (.bytes src) = (base, some (.baseLength src.length)) ∧
      (Err.baseLength src.length).wraps .ErrFailedParse = true) ∧
    (∃ s, (match b.Value with
            | .nil => some ScanSrc.nil
            | .bytes x => some (ScanSrc.bytes x)
            | .string x => some (ScanSrc.string x)) = some s ∧
          base.Scan s = (b, none)) := by
  refine ⟨?_, ?_, ?_, ?_⟩
  · intro h
    have h0 : ¬ (src.length = 0) := by omega
    have h1 : ¬ (src.length ≠ baseLen) := by simp [h, baseLen, timeLen, randLen]
    refine ⟨⟨src, not_not.mp h1⟩, ?_, rfl⟩
    simp only [Base.Scan, h0, if_false, h1, dite_false]
  · intro h
    simp [Base.Scan, h]
  · intro h16 h0
    have h1 : src.length ≠ baseLen := by simpa [baseLen, timeLen, randLen] using h16
    refine ⟨?_, rfl⟩
    simp only [Base.Scan, h0, if_false]
    rw [dif_pos h1]
  · unfold Base.Value
    by_cases he : b.Empty = true
    · rw [if_pos he]
      refine ⟨_, rfl, ?_⟩
      rw [(Base.Empty_iff b).mp he]
      rfl
    · rw [if_neg he]
      refine ⟨_, rfl, ?_⟩
      have h0 : ¬ (b.bytes.length = 0) := by
        rw [b.size]
        decide
      have h1 : ¬ (b.bytes.length ≠ baseLen) := by simp [b.size]
      simp only [Base.Scan, Base.Bytes, h0, if_false, h1, dite_false]

theorem Scan_bytes_witness :
    (List.replicate 16 (1 : Byte)).length = 16 ∧
    (∃ r, Base.zero.Scan (.bytes (List.replicate 16 1)) = (r, none) ∧
      r.bytes = List.replicate 16 1) ∧
    ([1, 2] : Str).length ≠ 16 ∧ ([1, 2] : Str).length ≠ 0 ∧
    Base.zero.Scan (.bytes [1, 2]) = (Base.zero, some (.baseLength 2)) ∧
    ([] : Str).length = 0 ∧ Base.zero.Scan (.bytes []) = (Base.zero, none) :=
  ⟨by decide, (Scan_bytes Base.zero (List.replicate 16 1) Base.zero).1 (by decide),
    by decide, by decide,
    ((Scan_bytes Base.zero [1, 2] Base.zero).2.2.1 (by decide) (by decide)).1,
    by decide, (Scan_bytes Base.zero [] Base.zero).2.1 (by decide)⟩

/-! ### Failure leaves the receiver alone -/

theorem Base.UnmarshalText_unchanged (base : Base) (src : Str) (e : Err)
    (h : (base.UnmarshalText src).2 = some e) : (base.UnmarshalText src).1 = base := by
  unfold Base.UnmarshalText at h ⊢
  simp only at h ⊢
  split
  · rename_i h0
    rw [if_pos h0] at h
    cases h
  · rename_i h0
    rw [if_neg h0] at h
    split
    · rfl
    · rename_i h1
      rw [if_neg h1] at h
      split
      · rfl
      · rename_i heq
        rw [heq] at h
        cases h

/-- C28: parsing is atomic on failure. For every NID id and every text, when
id.UnmarshalText(text) returns an error the receiver is left exactly as it was
(neither name nor base is changed), whether the separator check, the name
grammar or the decoding of the base fails; and so it is for Base.UnmarshalText
on its receiver. -/
theorem UnmarshalText_atomic (id : NID) (base : Base) (text : Str) :
    (∀ e, (id.UnmarshalText text).2 = some e → (id.UnmarshalText text).1 = id) ∧
    (∀ e, (id.UnmarshalText text).2 = some e →
      (id.UnmarshalText text).1.name = id.name ∧ (id.UnmarshalText text).1.base = id.base) ∧
    (∀ e, (base.UnmarshalText text).2 = some e → (base.UnmarshalText text).1 = base) := by
  have h : ∀ e, (id.UnmarshalText text).2 = some e → (id.UnmarshalText text).1 = id := by
    intro e he
    unfold NID.UnmarshalText at he ⊢
    simp only at he ⊢
    split
    · rename_i h0
      rw [if_pos h0] at he
      cases he
    · rename_i h0
      rw [if_neg h0] at he
      split
      · rfl
      · rename_i h1
        rw [if_neg h1] at he
        split
        · rfl
        · rename_i h2
          rw [if_neg h2] at he
          have ha := Base.UnmarshalText_unchanged id.base
            (List.drop ((lastIndexByte text underscore).toNat + 1) text)
          revert he ha
          generalize id.base.UnmarshalText
            (List.drop ((lastIndexByte text underscore).toNat + 1) text) = r
          rcases r with ⟨b, _ | err⟩
          · intro he _
            simp only at he
            split at he <;> cases he
          · intro _ ha
            have hb : b = id.base := ha err rfl
            simp only [hb]
  refine ⟨h, ?_, Base.UnmarshalText_unchanged base text⟩
  intro e he
  rw [h e he]
  exact ⟨rfl, rfl⟩

theorem UnmarshalText_atomic_witness :
    (NID.mk [97] ⟨List.replicate 16 1, by decide⟩).UnmarshalText [98, 95, 48] =
      (⟨[97], ⟨List.replicate 16 1, by decide⟩⟩, some (.baseLength 1)) ∧
    ((NID.mk [97] ⟨List.replicate 16 1, by decide⟩).UnmarshalText [98, 95, 48]).1 =
      ⟨[97], ⟨List.replicate 16 1, by decide⟩⟩ :=
  ⟨by decide,
    (UnmarshalText_atomic (NID.mk [97] ⟨List.replicate 16 1, by decide⟩) Base.zero
      [98, 95, 48]).1 (.baseLength 1) (by decide)⟩

/-! ### The last symbol of a Base text -/

set_option maxRecDepth 20000 in
theorem encodeSym_decodeSym :
    ∀ c ∈ encStr, decodeSym c < 32 ∧ encodeSym (decodeSym c) = c ∧
      (decodeSym c % 4 = 0 ↔ c ∈ ([48, 52, 56, 99, 103, 107, 111, 115] : Str)) := by
  decide

theorem map_encodeSym_decodeSym (s : Str) (ha : ∀ c ∈ s, c ∈ encStr) :
    (s.map decodeSym).map encodeSym = s := by
  induction s with
  | nil => rfl
  | cons c cs ih =>
    simp only [List.map_cons]
    rw [(encodeSym_decodeSym c (ha c (List.mem_cons_self _ _))).2.1,
      ih (fun x hx => ha x (List.mem_cons_of_mem _ hx))]

theorem unpackVals_length (vs : List Nat) : (unpackVals vs).length = baseLen := rfl

theorem ParseBase_vals (vs : List Nat) (hl : vs.length = 26) (hvs : ∀ v ∈ vs, v < 32) :
    ParseBase (vs.map encodeSym) = (⟨unpackVals vs, unpackVals_length vs⟩, none) := by
  have hd := Decode_map_encodeSym (List.replicate 16 0) vs hvs
  rw [decodeVals_26 vs hl hvs] at hd
  have h26 : (vs.map encodeSym).length = 26 := by rw [List.length_map, hl]
  simp only [ParseBase, ParseBaseBytes, Base.UnmarshalText, h26, EncodedLen, baseLen, timeLen,
    randLen, Base.zero]
  simp only [Nat.reduceAdd] at hd ⊢
  rw [hd]
  simp [Base.ofDst, unpackVals_length vs, baseLen, timeLen, randLen]

theorem quantum_fwd (v0 v1 v2 v3 v4 v5 v6 v7 : Nat) (h0 : v0 < 32) (h1 : v1 < 32)
    (h2 : v2 < 32) (h3 : v3 < 32) (h4 : v4 < 32) (h5 : v5 < 32) (h6 : v6 < 32) (h7 : v7 < 32) :
    quantumVals ((v0 * 8 + v1 / 4) % 256) ((v1 * 64 % 256 + v2 * 2 + v3 / 16) % 256)
      ((v3 * 16 % 256 + v4 / 2) % 256) ((v4 * 128 % 256 + v5 * 4 + v6 / 8) % 256)
      ((v6 * 32 % 256 + v7) % 256) = [v0, v1, v2, v3, v4, v5, v6, v7] := by
  simp only [quantumVals]
  refine congrArg₂ List.cons (by omega) ?_
  refine congrArg₂ List.cons (by omega) ?_
  refine congrArg₂ List.cons (by omega) ?_
  refine congrArg₂ List.cons (by omega) ?_
  refine congrArg₂ List.cons (by omega) ?_
  refine congrArg₂ List.cons (by omega) ?_
  refine congrArg₂ List.cons (by omega) ?_
  refine congrArg₂ List.cons (by omega) rfl

theorem baseVals_unpackVals (vs : List Nat) (hl : vs.length = 26) (hvs : ∀ v ∈ vs, v < 32) :
    baseVals (unpackVals vs) = vs.take 25 ++ [vs.getD 25 0 / 4 * 4] := by
  obtain ⟨v0, v1, v2, v3, v4, v5, v6, v7, v8, v9, v10, v11, v12, v13, v14, v15, v16, v17,
        v18, v19, v20, v21, v22, v23, v24, v25, rfl⟩ := length_26 vs hl
  simp only [List.mem_cons, List.mem_singleton, List.not_mem_nil, or_false, forall_eq_or_imp,
    forall_eq] at hvs
  obtain ⟨h0, h1, h2, h3, h4, h5, h6, h7, h8, h9, h10, h11, h12, h13, h14, h15, h16, h17,
        h18, h19, h20, h21, h22, h23, h24, h25⟩ := hvs
  have q0 := quantum_fwd v0 v1 v2 v3 v4 v5 v6 v7 h0 h1 h2 h3 h4 h5 h6 h7
  have q1 := quantum_fwd v8 v9 v10 v11 v12 v13 v14 v15 h8 h9 h10 h11 h12 h13 h14 h15
  have q2 := quantum_fwd v16 v17 v18 v19 v20 v21 v22 v23 h16 h17 h18 h19 h20 h21 h22 h23
  have e1 : (v24 * 8 + v25 / 4) % 256 / 8 = v24 := by omega
  have e2 : (v24 * 8 + v25 / 4) % 256 * 4 % 32 = v25 / 4 * 4 := by omega
  simp only [baseVals, unpackVals, toByte, List.cons_append, List.nil_append,
    List.getD_cons_zero, List.getD_cons_succ, Nat.zero_add, Nat.reduceAdd, q0, q1, q2, e1, e2,
    List.take_succ_cons, List.take_zero]

theorem unpackVals_congr (vs ws : List Nat) (h : vs.take 25 = ws.take 25)
    (h25 : vs.getD 25 0 / 4 = ws.getD 25 0 / 4) : unpackVals vs = unpackVals ws := by
  have hi : ∀ i, i < 25 → vs.getD i 0 = ws.getD i 0 := by
    intro i hi
    have e1 : (vs.take 25).getD i 0 = vs.getD i 0 := by
      simp [List.getD_eq_getElem?_getD, List.getElem?_take, hi]
    have e2 : (ws.take 25).getD i 0 = ws.getD i 0 := by
      simp [List.getD_eq_getElem?_getD, List.getElem?_take, hi]
    rw [← e1, ← e2, h]
  simp only [unpackVals, Nat.zero_add, Nat.reduceAdd, h25, hi 0 (by omega), hi 1 (by omega),
    hi 2 (by omega), hi 3 (by omega), hi 4 (by omega), hi 5 (by omega), hi 6 (by omega),
    hi 7 (by omega), hi 8 (by omega), hi 9 (by omega), hi 10 (by omega), hi 11 (by omega),
    hi 12 (by omega), hi 13 (by omega), hi 14 (by omega), hi 15 (by omega), hi 16 (by omega),
    hi 17 (by omega), hi 18 (by omega), hi 19 (by omega), hi 20 (by omega), hi 21 (by omega),
    hi 22 (by omega), hi 23 (by omega), hi 24 (by omega)]

theorem decodeSym_lt_of_mem (s : Str) (ha : ∀ c ∈ s, c ∈ encStr) :
    ∀ v ∈ s.map decodeSym, v < 32 := by
  intro v hv
  obtain ⟨c, hc, rfl⟩ := List.mem_map.mp hv
  exact (encodeSym_decodeSym c (ha c hc)).1

theorem getD_map_decodeSym (s : Str) (hl : s.length = 26) :
    (s.map decodeSym).getD 25 0 = decodeSym (s.getD 25 0) := by
  have h1 : 25 < s.length := by omega
  have h2 : 25 < (s.map decodeSym).length := by rw [List.length_map]; exact h1
  rw [List.getD_eq_getElem _ _ h2, List.getD_eq_getElem _ _ h1, List.getElem_map]

theorem ParseBase_alphabet (s : Str) (hl : s.length = 26) (ha : ∀ c ∈ s, c ∈ encStr) :
    ParseBase s = (⟨unpackVals (s.map decodeSym), unpackVals_length _⟩, none) := by
  have h := ParseBase_vals (s.map decodeSym) (by rw [List.length_map, hl])
    (decodeSym_lt_of_mem s ha)
  rw [map_encodeSym_decodeSym s ha] at h
  exact h

theorem take_append_getD (l : List Nat) (h : l.length = 26) :
    l.take 25 ++ [l.getD 25 0] = l := by
  obtain ⟨v0, v1, v2, v3, v4, v5, v6, v7, v8, v9, v10, v11, v12, v13, v14, v15, v16, v17,
        v18, v19, v20, v21, v22, v23, v24, v25, rfl⟩ := length_26 l h
  rfl

theorem encodeSym_injective (u v : Nat) (hu : u < 32) (hv : v < 32)
    (h : encodeSym u = encodeSym v) : u = v := by
  have := congrArg decodeSym h
  rw [decodeSym_encodeSym u hu, decodeSym_encodeSym v hv] at this
  exact this

theorem reencode_iff (vs : List Nat) (hl : vs.length = 26) (hvs : ∀ v ∈ vs, v < 32) :
    (vs.take 25 ++ [vs.getD 25 0 / 4 * 4]).map encodeSym = vs.map encodeSym ↔
      vs.getD 25 0 % 4 = 0 := by
  have h25 : vs.getD 25 0 < 32 := by
    have h : 25 < vs.length := by omega
    rw [List.getD_eq_getElem _ _ h]
    exact hvs _ (List.getElem_mem _)
  constructor
  · intro h
    nth_rewrite 3 [← take_append_getD vs hl] at h
    rw [List.map_append, List.map_append] at h
    have h' := List.append_cancel_left h
    simp only [List.map_cons, List.map_nil, List.cons.injEq, and_true] at h'
    have := encodeSym_injective _ _ (by omega) h25 h'
    omega
  · intro h
    have e4 : vs.getD 25 0 / 4 * 4 = vs.getD 25 0 := by omega
    rw [e4, take_append_getD vs hl]

/-- C29: decoding is not canonical in the last symbol. For every 26-byte
string s over the alphabet, ParseBase(s) succeeds, and its result depends only
on the first 25 symbols and on the top three of the five bits of the last one;
so ParseBase(s).String() = s iff the value of the last symbol is a multiple of
4 (the symbol is one of 0 4 8 c g k o s). Twenty-five '0' followed by '3'
decode to the all-zero Base, and "book_00000000000000000000000003" parses to
the empty NID. -/
theorem ParseBase_last_symbol (s : Str) (hl : s.length = 26) (ha : ∀ c ∈ s, c ∈ encStr) :
    (∃ b, ParseBase s = (b, none) ∧
      (b.String = s ↔ decodeSym (s.getD 25 0) % 4 = 0) ∧
      (b.String = s ↔ s.getD 25 0 ∈ ([48, 52, 56, 99, 103, 107, 111, 115] : Str))) ∧
    (∀ t : Str, t.length = 26 → (∀ c ∈ t, c ∈ encStr) → t.take 25 = s.take 25 →
      decodeSym (t.getD 25 0) / 4 = decodeSym (s.getD 25 0) / 4 → ParseBase t = ParseBase s) ∧
    ParseBase (List.replicate 25 48 ++ [51]) = (Base.zero, none) ∧
    Parse ([98, 111, 111, 107, 95] ++ List.replicate 25 48 ++ [51]) = (NID.zero, none) := by
  have hvl : (s.map decodeSym).length = 26 := by rw [List.length_map, hl]
  have hvs := decodeSym_lt_of_mem s ha
  have h25 : 25 < s.length := by omega
  have hmem : s.getD 25 0 ∈ encStr := by
    rw [List.getD_eq_getElem _ _ h25]
    exact ha _ (List.getElem_mem _)
  have hiff : (⟨unpackVals (s.map decodeSym), unpackVals_length _⟩ : Base).String = s ↔
      decodeSym (s.getD 25 0) % 4 = 0 := by
    simp only [Base.String, Base.MarshalText]
    rw [Encode_eq_baseVals _ (unpackVals_length _), baseVals_unpackVals _ hvl hvs,
      getD_map_decodeSym s hl]
    have key := reencode_iff (s.map decodeSym) hvl hvs
    rw [map_encodeSym_decodeSym s ha, getD_map_decodeSym s hl] at key
    exact key
  refine ⟨⟨_, ParseBase_alphabet s hl ha, hiff, ?_⟩, ?_, by decide, by decide⟩
  · rw [hiff]
    exact (encodeSym_decodeSym _ hmem).2.2
  · intro t htl hta htake hlast
    rw [ParseBase_alphabet s hl ha, ParseBase_alphabet t htl hta]
    have : unpackVals (t.map decodeSym) = unpackVals (s.map decodeSym) := by
      apply unpackVals_congr
      · rw [← List.map_take, ← List.map_take, htake]
      · rw [getD_map_decodeSym t htl, getD_map_decodeSym s hl, hlast]
    simp only [this]

theorem ParseBase_last_symbol_witness :
    (List.replicate 25 48 ++ [51] : Str).length = 26 ∧
    (∃ b, ParseBase (List.replicate 25 48 ++ [51]) = (b, none) ∧
      (b.String = List.replicate 25 48 ++ [51] ↔
        decodeSym ((List.replicate 25 48 ++ [51] : Str).getD 25 0) % 4 = 0) ∧
      (b.String = List.replicate 25 48 ++ [51] ↔
        (List.replicate 25 48 ++ [51] : Str).getD 25 0 ∈
          ([48, 52, 56, 99, 103, 107, 111, 115] : Str))) :=
  ⟨by decide,
    (ParseBase_last_symbol (List.replicate 25 48 ++ [51]) (by decide)
      (by
        intro c hc
        simp only [List.mem_append, List.mem_replicate, List.mem_singleton] at hc
        rcases hc with ⟨_, rfl⟩ | rfl <;> decide)).1⟩

/-! ### Sorting is determined by the elements -/

theorem SortNID_perm (sortFunc : {α : Type} → (α → α → Int) → List α → List α)
    (h : SortFuncContract sortFunc) (l1 l2 : List NID) (hp : l1.Perm l2) :
    SortNID sortFunc l1 = SortNID sortFunc l2 := by
  haveI : IsAntisymm NID (fun a b => Compare a b ≤ 0) := ⟨by
    intro a b h1 h2
    have := Compare_swap a b
    exact (Compare_eq_zero a b).mp (by omega)⟩
  have p1 : (SortNID sortFunc l1).Perm l1 := (h NID Compare l1 Compare_strictWeak).1
  have p2 : (SortNID sortFunc l2).Perm l2 := (h NID Compare l2 Compare_strictWeak).1
  exact List.eq_of_perm_of_sorted (p1.trans (hp.trans p2.symm))
    (SortNID_pairwise sortFunc h l1) (SortNID_pairwise sortFunc h l2)

theorem SortBase_perm (sortFunc : {α : Type} → (α → α → Int) → List α → List α)
    (h : SortFuncContract sortFunc) (l1 l2 : List Base) (hp : l1.Perm l2) :
    SortBase sortFunc l1 = SortBase sortFunc l2 := by
  haveI : IsAntisymm Base (fun a b => CompareBase a b ≤ 0) := ⟨by
    intro a b h1 h2
    have := CompareBase_swap a b
    exact (CompareBase_eq_zero a b).mp (by omega)⟩
  have p1 : (SortBase sortFunc l1).Perm l1 := (h Base CompareBase l1 CompareBase_strictWeak).1
  have p2 : (SortBase sortFunc l2).Perm l2 := (h Base CompareBase l2 CompareBase_strictWeak).1
  exact List.eq_of_perm_of_sorted (p1.trans (hp.trans p2.symm))
    (SortBase_pairwise sortFunc h l1) (SortBase_pairwise sortFunc h l2)

/-- C30: the result of sorting is determined by the elements. With
slices.SortFunc meeting its contract, for two lists of NIDs (of Bases) that are
permutations of one another Sort (SortBase) leaves the same list, element by
element: two elements tie under Compare (CompareBase) only when they are
equal. -/
theorem Sort_determined (sortFunc : {α : Type} → (α → α → Int) → List α → List α)
    (h : SortFuncContract sortFunc) (l1 l2 : List NID) (hp : l1.Perm l2)
    (m1 m2 : List Base) (hq : m1.Perm m2) :
    SortNID sortFunc l1 = SortNID sortFunc l2 ∧
    SortBase sortFunc m1 = SortBase sortFunc m2 ∧
    (∀ a b : NID, Compare a b = 0 → a = b) ∧
    (∀ x y : Base, CompareBase x y = 0 → x = y) :=
  ⟨SortNID_perm sortFunc h l1 l2 hp, SortBase_perm sortFunc h m1 m2 hq,
    fun a b => (Compare_eq_zero a b).mp, fun x y => (CompareBase_eq_zero x y).mp⟩

theorem Sort_determined_witness :
    SortNID insertionSortFunc [⟨[98], Base.zero⟩, ⟨[97], Base.zero⟩] =
      SortNID insertionSortFunc [⟨[97], Base.zero⟩, ⟨[98], Base.zero⟩] ∧
    SortBase insertionSortFunc [⟨List.replicate 16 1, by decide⟩, Base.zero] =
      SortBase insertionSortFunc [Base.zero, ⟨List.replicate 16 1, by decide⟩] :=
  ⟨(Sort_determined insertionSortFunc insertionSortFunc_contract
      [⟨[98], Base.zero⟩, ⟨[97], Base.zero⟩] [⟨[97], Base.zero⟩, ⟨[98], Base.zero⟩]
      (List.Perm.swap _ _ _)
      [⟨List.replicate 16 1, by decide⟩, Base.zero] [Base.zero, ⟨List.replicate 16 1, by decide⟩]
      (List.Perm.swap _ _ _)).1,
   (Sort_determined insertionSortFunc insertionSortFunc_contract
      [⟨[98], Base.zero⟩, ⟨[97], Base.zero⟩] [⟨[97], Base.zero⟩, ⟨[98], Base.zero⟩]
      (List.Perm.swap _ _ _)
      [⟨List.replicate 16 1, by decide⟩, Base.zero] [Base.zero, ⟨List.replicate 16 1, by decide⟩]
      (List.Perm.swap _ _ _)).2.1⟩


/-! ### Compare and the order of the text forms -/

theorem stringCompare_self (s : Str) : stringCompare s s = 0 :=
  (stringCompare_eq_zero s s).mpr rfl

theorem stringCompare_append_left (p s t : Str) :
    stringCompare (p ++ s) (p ++ t) = stringCompare s t := by
  rw [stringCompare_append s t p p rfl, if_pos (stringCompare_self p)]

theorem NID.String_of_nonempty (id : NID) (h1 : id.name ≠ []) (h2 : id.base.Empty = false) :
    id.String = id.name ++ underscore :: Encode id.base.bytes := by
  have h3 : ¬ (id.name.length = 0) := fun e => h1 (List.length_eq_zero.mp e)
  simp [NID.String, NID.MarshalText, h3, h2, Base.String, Base.MarshalText]

theorem NID.String_of_empty_base (id : NID) (h : id.base.Empty = true) : id.String = [] :=
  (NID.String_eq_nil id).mpr (by simp [NID.Empty, h])

theorem encodeSym_above_one : ∀ v < 32, (49 < encodeSym v ↔ 2 ≤ v) := by decide

theorem Compare_same_name (a b : NID) (hn : a.name = b.name) (hne : a.name ≠ []) :
    Compare a b = stringCompare a.String b.String := by
  have hnb : b.name ≠ [] := hn ▸ hne
  rw [Compare_eq, hn, if_pos (stringCompare_self b.name)]
  by_cases ha : a.base.Empty = true
  · have hza := (Base.Empty_iff a.base).mp ha
    rw [NID.String_of_empty_base a ha]
    by_cases hb : b.base.Empty = true
    · have hzb := (Base.Empty_iff b.base).mp hb
      rw [NID.String_of_empty_base b hb, hza, hzb]
      exact (CompareBase_eq_zero _ _).mpr rfl
    · have hb' : b.base.Empty = false := by simpa using hb
      rw [NID.String_of_nonempty b hnb hb', hza, stringCompare_nil]
      have hx : b.name ++ underscore :: Encode b.base.bytes ≠ [] := by simp
      rw [if_neg hx]
      have h1 := CompareBase_zero b.base
      have h2 : CompareBase Base.zero b.base ≠ 0 := by
        intro e
        have := (CompareBase_eq_zero _ _).mp e
        rw [← this] at hb
        exact hb Base.zero_Empty
      rcases CompareBase_range Base.zero b.base with e | e | e
      · exact e
      · exact absurd e h2
      · omega
  · have ha' : a.base.Empty = false := by simpa using ha
    rw [NID.String_of_nonempty a hne ha']
    by_cases hb : b.base.Empty = true
    · have hzb := (Base.Empty_iff b.base).mp hb
      rw [NID.String_of_empty_base b hb, hzb]
      have hs := stringCompare_swap [] (a.name ++ underscore :: Encode a.base.bytes)
      rw [stringCompare_nil] at hs
      have hx : a.name ++ underscore :: Encode a.base.bytes ≠ [] := by simp
      rw [if_neg hx] at hs
      rw [hs]
      have h0 := CompareBase_swap Base.zero a.base
      have h1 := CompareBase_zero a.base
      have h2 : CompareBase Base.zero a.base ≠ 0 := by
        intro e
        have := (CompareBase_eq_zero _ _).mp e
        rw [← this] at ha
        exact ha Base.zero_Empty
      rcases CompareBase_range Base.zero a.base with e | e | e
      · rw [h0, e]
      · exact absurd e h2
      · omega
    · have hb' : b.base.Empty = false := by simpa using hb
      rw [NID.String_of_nonempty b hnb hb', hn, stringCompare_append_left]
      simp only [stringCompare, lt_irrefl, if_false, gt_iff_lt]
      rw [stringCompare_Encode _ _ a.base.size b.base.size, CompareBase_bytes]

theorem Compare_example (p q : Base) (hp : p.Empty = false) (hq : q.Empty = false)
    (h : 49 < p.String.getD 0 0) :
    Compare ⟨[101, 120, 97, 109, 112, 108, 101], p⟩
        ⟨[101, 120, 97, 109, 112, 108, 101, 95, 49], q⟩ = -1 ∧
    stringCompare (NID.mk [101, 120, 97, 109, 112, 108, 101] p).String
        (NID.mk [101, 120, 97, 109, 112, 108, 101, 95, 49] q).String = 1 := by
  constructor
  · have e : stringCompare [101, 120, 97, 109, 112, 108, 101]
        [101, 120, 97, 109, 112, 108, 101, 95, 49] = -1 := by decide
    rw [Compare_eq]
    dsimp only
    rw [e]
    rfl
  · rw [NID.String_of_nonempty _ (by simp) hp, NID.String_of_nonempty _ (by simp) hq]
    have hl := Encode_length p.bytes p.size
    simp only [Base.String, Base.MarshalText] at h
    cases hE : Encode p.bytes with
    | nil =>
      rw [hE] at hl
      cases hl
    | cons x rest =>
      rw [hE] at h
      simp only [List.getD_cons_zero] at h
      have e : ([101, 120, 97, 109, 112, 108, 101, 95, 49] : Str) ++ underscore ::
          Encode q.bytes = [101, 120, 97, 109, 112, 108, 101] ++
            underscore :: 49 :: underscore :: Encode q.bytes := rfl
      simp only
      rw [e, stringCompare_append_left]
      have h1 : ¬ (x < 49) := not_lt.mpr (le_of_lt h)
      simp only [stringCompare, lt_irrefl, if_false, gt_iff_lt, h1, h, if_true]

/-- C31: unlike CompareBase on Bases, Compare on NIDs does not always agree
with the byte order of the text forms. There are two non-empty NIDs a and b
with grammar-valid names, Compare(a, b) = -1 and a.String() bytewise greater
than b.String(): every a named "example" with a non-empty base whose text
starts with a symbol above '1' and every b named "example_1" with a non-empty
base. When a and b have the same non-empty name, Compare(a, b) is the
comparison of a.String() and b.String(). -/
theorem Compare_text_order :
    (∃ a b : NID, validateName a.name = true ∧ validateName b.name = true ∧
      a.Empty = false ∧ b.Empty = false ∧
      Compare a b = -1 ∧ stringCompare a.String b.String = 1) ∧
    (∀ p q : Base, p.Empty = false → q.Empty = false → 49 < p.String.getD 0 0 →
      validateName [101, 120, 97, 109, 112, 108, 101] = true ∧
      validateName [101, 120, 97, 109, 112, 108, 101, 95, 49] = true ∧
      Compare ⟨[101, 120, 97, 109, 112, 108, 101], p⟩
        ⟨[101, 120, 97, 109, 112, 108, 101, 95, 49], q⟩ = -1 ∧
      stringCompare (NID.mk [101, 120, 97, 109, 112, 108, 101] p).String
        (NID.mk [101, 120, 97, 109, 112, 108, 101, 95, 49] q).String = 1) ∧
    (∀ a b : NID, a.name = b.name → a.name ≠ [] →
      Compare a b = stringCompare a.String b.String) := by
  have hp : (Base.mk (16 :: List.replicate 15 0) (by decide)).Empty = false := by decide
  have hq : (Base.mk (List.replicate 15 0 ++ [1]) (by decide)).Empty = false := by decide
  have hx : 49 < (Base.mk (16 :: List.replicate 15 0) (by decide)).String.getD 0 0 := by decide
  have hc := Compare_example _ _ hp hq hx
  refine ⟨⟨⟨[101, 120, 97, 109, 112, 108, 101], ⟨16 :: List.replicate 15 0, by decide⟩⟩,
      ⟨[101, 120, 97, 109, 112, 108, 101, 95, 49], ⟨List.replicate 15 0 ++ [1], by decide⟩⟩,
      by decide, by decide, ?_, ?_, hc.1, hc.2⟩, ?_, Compare_same_name⟩
  · decide
  · decide
  · intro p q hp hq h
    exact ⟨by decide, by decide, Compare_example p q hp hq h⟩

theorem Compare_text_order_witness :
    (Base.mk (16 :: List.replicate 15 0) (by decide)).Empty = false ∧
    (Base.mk (List.replicate 15 0 ++ [1]) (by decide)).Empty = false ∧
    49 < (Base.mk (16 :: List.replicate 15 0) (by decide)).String.getD 0 0 ∧
    Compare ⟨[101, 120, 97, 109, 112, 108, 101], ⟨16 :: List.replicate 15 0, by decide⟩⟩
      ⟨[101, 120, 97, 109, 112, 108, 101, 95, 49], ⟨List.replicate 15 0 ++ [1], by decide⟩⟩ =
        -1 ∧
    stringCompare
      (NID.mk [101, 120, 97, 109, 112, 108, 101] ⟨16 :: List.replicate 15 0, by decide⟩).String
      (NID.mk [101, 120, 97, 109, 112, 108, 101, 95, 49]
        ⟨List.replicate 15 0 ++ [1], by decide⟩).String = 1 ∧
    Compare ⟨[97], ⟨16 :: List.replicate 15 0, by decide⟩⟩ ⟨[97], Base.zero⟩ =
      stringCompare (NID.mk [97] ⟨16 :: List.replicate 15 0, by decide⟩).String
        (NID.mk [97] Base.zero).String :=
  ⟨by decide, by decide, by decide,
    (Compare_text_order.2.1 ⟨16 :: List.replicate 15 0, by decide⟩
      ⟨List.replicate 15 0 ++ [1], by decide⟩ (by decide) (by decide) (by decide)).2.2.1,
    (Compare_text_order.2.1 ⟨16 :: List.replicate 15 0, by decide⟩
      ⟨List.replicate 15 0 ++ [1], by decide⟩ (by decide) (by decide) (by decide)).2.2.2,
    Compare_text_order.2.2 ⟨[97], ⟨16 :: List.replicate 15 0, by decide⟩⟩ ⟨[97], Base.zero⟩
      rfl (by decide)⟩

end Nid
